import Mathlib

/-!
# Verification of the bleeper profanity-filter core

Shallow embedding of the second (current) versions of `src/core/filter.ts`,
`src/normalization/{constants,normalize,variants}.ts`, `src/structures/trie.ts`
and `src/data/words.ts` from the `PeterM45/bleeper` repository.

Modelling conventions:
* A JavaScript string is modelled as a `List Char` of Unicode scalar values.
  All inputs appearing in the claims are in the Basic Multilingual Plane, where
  JavaScript UTF-16 code units coincide with scalar values, so `charCodeAt i`
  is `(t.getD i _).toNat` and `text[i]` / `charAt i` is `t.getD i _`.
* JavaScript `String.prototype.toLowerCase` / `toUpperCase` are modelled on the
  character ranges the filter's tables mention (ASCII, Greek and Cyrillic
  letters); they are the identity elsewhere.
* A JavaScript `Map` built from a literal entry list is looked up by returning
  the value of the *last* entry with the requested key (later `set`s override
  earlier ones); a JavaScript `Set` is modelled as the underlying list with
  first-occurrence deduplication, membership being list membership.
* The 31-bit hash `((hash << 5) - hash + c) & 0x7fffffff` computed with JS
  number/int32 semantics equals `(31 * hash + c) % 2 ^ 31` on natural numbers,
  which is the form used here.
-/

namespace Bleeper

/-- JS `toLowerCase`, restricted to ASCII, Greek and Cyrillic capitals
(identity on all other characters). -/
def jsToLower (c : Char) : Char :=
  let n := c.toNat
  if 65 ≤ n ∧ n ≤ 90 then Char.ofNat (n + 32)
  else if 913 ≤ n ∧ n ≤ 937 ∧ n ≠ 930 then Char.ofNat (n + 32)
  else if 1040 ≤ n ∧ n ≤ 1071 then Char.ofNat (n + 32)
  else c

/-- JS `toUpperCase`, restricted to ASCII, Greek and Cyrillic lowercase letters
(identity on all other characters; `ς` maps to `Σ`). -/
def jsToUpper (c : Char) : Char :=
  let n := c.toNat
  if 97 ≤ n ∧ n ≤ 122 then Char.ofNat (n - 32)
  else if n = 962 then Char.ofNat 931
  else if 945 ≤ n ∧ n ≤ 969 then Char.ofNat (n - 32)
  else if 1072 ≤ n ∧ n ≤ 1103 then Char.ofNat (n - 32)
  else c

/-- JS `s.slice(a, b)` for `0 ≤ a ≤ b` (out-of-range indices are clamped). -/
def sliceL (s : List Char) (a b : Nat) : List Char :=
  (s.take b).drop a

/-- JS `s.repeat(n)`. -/
def repeatL (s : List Char) (n : Nat) : List Char :=
  (List.replicate n s).flatten

/-- Is `fr` a contiguous sublist of `s`?  (JS `String.prototype.includes`.) -/
def hasInfixL (fr : List Char) : List Char → Bool
  | [] => fr.isEmpty
  | c :: rest => fr.isPrefixOf (c :: rest) || hasInfixL fr rest

/-- One split/join step used by `result.split(from).join(to)`: replace every
leftmost non-overlapping occurrence of `fr` (assumed nonempty) by `to`,
without rescanning the replacement text.  The fuel argument (`s.length`
suffices, each step consumes at least one character) makes the recursion
structural so that the kernel can evaluate it. -/
def sjGo (fr tgt : List Char) : Nat → List Char → List Char
  | _, [] => []
  | 0, s => s
  | fuel + 1, c :: rest =>
    if fr.isPrefixOf (c :: rest) && !fr.isEmpty then
      tgt ++ sjGo fr tgt fuel (rest.drop (fr.length - 1))
    else
      c :: sjGo fr tgt fuel rest

/-- JS `s.split(fr).join(to)` (for the nonempty patterns used by the code). -/
def splitJoin (fr tgt s : List Char) : List Char :=
  if fr.isEmpty then s else sjGo fr tgt s.length s

/-- Lookup in a JS `Map` literal: the value of the last entry whose key equals
`k` (later entries override earlier ones). -/
def jsMapGet (entries : List (List Char × List Char)) (k : List Char) :
    Option (List Char) :=
  ((entries.filter (fun e => e.1 == k)).getLast?).map (·.2)

/-- `CHAR_MAP` from `src/normalization/constants.ts`, in source entry order.
Multi-character keys are present, as in the source, but single-character
lookups can only ever return single-character-keyed entries. -/
def CHAR_MAP : List (List Char × List Char) := [
  ("@".data, "a".data),
  ("4".data, "a".data),
  ("∀".data, "a".data),
  ("α".data, "a".data),
  ("а".data, "a".data),
  ("8".data, "b".data),
  ("ß".data, "b".data),
  ("6".data, "b".data),
  ("в".data, "b".data),
  ("(".data, "c".data),
  ("\x7b".data, "c".data),
  ("¢".data, "c".data),
  ("©".data, "c".data),
  ("с".data, "c".data),
  ("|)".data, "d".data),
  ("[)".data, "d".data),
  ("о".data, "d".data),
  ("3".data, "e".data),
  ("2".data, "e".data),
  ("€".data, "e".data),
  ("е".data, "e".data),
  ("э".data, "e".data),
  ("ε".data, "e".data),
  ("є".data, "e".data),
  ("|=".data, "f".data),
  ("ph".data, "f".data),
  ("ƒ".data, "f".data),
  ("6".data, "g".data),
  ("9".data, "g".data),
  ("&".data, "g".data),
  ("ق".data, "g".data),
  ("|-|".data, "h".data),
  ("н".data, "h".data),
  ("1".data, "i".data),
  ("!".data, "i".data),
  ("|".data, "i".data),
  ("ι".data, "i".data),
  ("і".data, "i".data),
  ("ї".data, "i".data),
  ("_|".data, "j".data),
  ("у".data, "j".data),
  ("|<".data, "k".data),
  ("|\x7b".data, "k".data),
  ("к".data, "k".data),
  ("/".data, "l".data),
  ("\\".data, "l".data),
  ("ł".data, "l".data),
  ("ľ".data, "l".data),
  ("|v|".data, "m".data),
  ("^^".data, "m".data),
  ("м".data, "m".data),
  ("|\\|".data, "n".data),
  ("/\\/".data, "n".data),
  ("η".data, "n".data),
  ("п".data, "n".data),
  ("0".data, "o".data),
  ("()".data, "o".data),
  ("[]".data, "o".data),
  ("ο".data, "o".data),
  ("о".data, "o".data),
  ("ø".data, "o".data),
  ("|*".data, "p".data),
  ("|>".data, "p".data),
  ("9".data, "p".data),
  ("р".data, "p".data),
  ("(_,)".data, "q".data),
  ("9".data, "q".data),
  ("12".data, "r".data),
  ("я".data, "r".data),
  ("®".data, "r".data),
  ("5".data, "s".data),
  ("$".data, "s".data),
  ("§".data, "s".data),
  ("ѕ".data, "s".data),
  ("7".data, "t".data),
  ("+".data, "t".data),
  ("†".data, "t".data),
  ("τ".data, "t".data),
  ("т".data, "t".data),
  ("*".data, "u".data),
  ("|_|".data, "u".data),
  ("υ".data, "u".data),
  ("μ".data, "u".data),
  ("и".data, "u".data),
  ("ц".data, "u".data),
  ("v".data, "u".data),
  ("ü".data, "u".data),
  ("ù".data, "u".data),
  ("ú".data, "u".data),
  ("û".data, "u".data),
  ("\\/".data, "v".data),
  ("ν".data, "v".data),
  ("в".data, "v".data),
  ("vv".data, "w".data),
  ("\\/\\/".data, "w".data),
  ("ω".data, "w".data),
  ("щ".data, "w".data),
  ("><".data, "x".data),
  ("×".data, "x".data),
  ("χ".data, "x".data),
  ("х".data, "x".data),
  ("`/".data, "y".data),
  ("γ".data, "y".data),
  ("у".data, "y".data),
  ("ч".data, "y".data),
  ("2".data, "z".data),
  ("~".data, "z".data),
  ("ζ".data, "z".data),
  ("з".data, "z".data),
  ("₳".data, "a".data),
  ("฿".data, "b".data),
  ("₵".data, "c".data),
  ("₫".data, "d".data),
  ("€".data, "e".data),
  ("₣".data, "f".data),
  ("₲".data, "g".data),
  ("₴".data, "h".data),
  ("ł".data, "i".data),
  ("₭".data, "k".data),
  ("£".data, "l".data),
  ("₥".data, "m".data),
  ("₦".data, "n".data),
  ("₱".data, "p".data),
  ("₹".data, "r".data),
  ("$".data, "s".data),
  ("₮".data, "t".data),
  ("μ".data, "u".data),
  ("₩".data, "w".data),
  ("¥".data, "y".data),
  ("🅰️".data, "a".data),
  ("🅱️".data, "b".data),
  ("©️".data, "c".data),
  ("🇩".data, "d".data),
  ("📧".data, "e".data),
  ("🎏".data, "f".data),
  ("⛽".data, "g".data),
  ("🏨".data, "h".data),
  ("ℹ️".data, "i".data),
  ("🗾".data, "j".data),
  ("🎋".data, "k".data),
  ("🏷️".data, "l".data),
  ("📧".data, "m".data),
  ("📰".data, "n".data),
  ("⭕".data, "o".data),
  ("🅿️".data, "p".data),
  ("🔍".data, "q".data),
  ("®️".data, "r".data),
  ("💰".data, "s".data),
  ("✝️".data, "t".data),
  ("⛎".data, "u".data),
  ("✌️".data, "v".data),
  ("〰️".data, "w".data),
  ("❌".data, "x".data),
  ("💴".data, "y".data),
  ("💤".data, "z".data)]

/-- Single-character `CHAR_MAP.get` (the only form of lookup the filter
performs on `CHAR_MAP`). -/
def charMapGet1 (c : Char) : Option (List Char) :=
  jsMapGet CHAR_MAP [c]

/-- `MULTI_CHAR_SUBS` from `src/normalization/constants.ts`, in source order. -/
def MULTI_CHAR_SUBS : List (List Char × List Char) := [
  ("ph".data, "f".data),
  ("xx".data, "x".data),
  ("kk".data, "k".data),
  ("teh".data, "the".data),
  ("pwn".data, "own".data),
  ("n00b".data, "noob".data),
  ("|-|".data, "h".data),
  ("|_|".data, "u".data),
  ("|\\|".data, "n".data),
  ("|v|".data, "m".data),
  ("|*".data, "p".data),
  ("|>".data, "p".data),
  ("(_,)".data, "q".data),
  ("\\/".data, "v".data),
  ("vv".data, "w".data),
  ("\\/\\/".data, "w".data),
  ("><".data, "x".data),
  ("`/".data, "y".data),
  ("th".data, "th".data),
  ("ng".data, "ng".data),
  ("ch".data, "ch".data),
  ("sh".data, "sh".data)]

/-- `AMBIGUOUS_CHARS` from `src/normalization/constants.ts`. -/
def AMBIGUOUS_CHARS : List (Char × List Char) := [
  ('1', ['i', 'l']),
  ('|', ['i', 'l']),
  ('l', ['l', 'i']),
  ('0', ['o', 'd']),
  ('6', ['g', 'b']),
  ('9', ['g', 'q'])]

/-- `AMBIGUOUS_CHARS.get`. -/
def ambGet (c : Char) : Option (List Char) :=
  (AMBIGUOUS_CHARS.find? (fun e => e.1 == c)).map (·.2)

/-- `AMBIGUOUS_CHARS.has`. -/
def ambHas (c : Char) : Bool :=
  (ambGet c).isSome

/-- The primary-normalization character pass of `getAllNormalizations`:
lowercase each character and apply the single-character `CHAR_MAP`
substitution, also recording whether an ambiguous character was seen. -/
def primaryPass (text : List Char) : List Char × Bool :=
  text.foldl
    (fun st c =>
      let lc := jsToLower c
      (st.1 ++ ((charMapGet1 lc).getD [lc]), st.2 || ambHas lc))
    ([], false)

/-- The multi-character-substitution pass of `getAllNormalizations`: each rule
is applied (via `split`/`join`) when its pattern occurs. -/
def multiPass (s : List Char) : List Char :=
  MULTI_CHAR_SUBS.foldl
    (fun acc fr2 =>
      if hasInfixL fr2.1 acc then splitJoin fr2.1 fr2.2 acc else acc)
    s

/-- The variant-generation scan of `getAllNormalizations`: find the first
position of `primary` holding an ambiguous character with more than one
option and a distinct alternative, and return `primary` with that position
replaced by the alternative. -/
def ambVariantScan (primary : List Char) : List Char → Nat → Option (List Char)
  | [], _ => none
  | c :: rest, i =>
    match ambGet c with
    | some opts =>
      if opts.length > 1 then
        let alt := opts.getD 1 (opts.getD 0 c)
        if alt ≠ c then some (primary.set i alt)
        else ambVariantScan primary rest (i + 1)
      else ambVariantScan primary rest (i + 1)
    | none => ambVariantScan primary rest (i + 1)

/-- `getAllNormalizations` from `src/normalization/variants.ts`: the primary
normalization (single-character pass, then multi-character substitutions),
plus at most one ambiguous-character variant. -/
def getAllNormalizations (text : List Char) : List (List Char) :=
  if text.isEmpty then [text]
  else
    let pp := primaryPass text
    let primary := multiPass pp.1
    if !pp.2 then [primary]
    else
      match ambVariantScan primary primary 0 with
      | some variant => [primary, variant]
      | none => [primary]

/-- `normalizeText` from `src/normalization/normalize.ts`: lowercase, then
multi-character substitutions (unconditional `split`/`join`), then the
single-character map. -/
def normalizeText (text : List Char) : List Char :=
  if text.isEmpty then text
  else
    let lowered := text.map jsToLower
    let afterMulti :=
      MULTI_CHAR_SUBS.foldl (fun acc fr2 => splitJoin fr2.1 fr2.2 acc) lowered
    afterMulti.flatMap (fun c => (charMapGet1 c).getD [c])

/-- `DEFAULT_WORDS` from `src/data/words.ts`, in source order. -/
def DEFAULT_WORDS : List (List Char) := [
  "damn".data, "hell".data, "crap".data, "shit".data, "fuck".data,
  "fuk".data, "bitch".data, "ass".data, "asshole".data, "bastard".data,
  "piss".data, "cock".data, "dick".data, "pussy".data, "whore".data,
  "slut".data, "cunt".data, "twat".data, "turd".data, "douchebag".data,
  "douche".data, "jerk".data, "jackass".data, "dipshit".data,
  "bullshit".data, "horseshit".data, "goddam".data, "goddamn".data,
  "goddammit".data, "dumbass".data, "dumbshit".data, "fucktard".data,
  "shithead".data, "dickhead".data, "asshat".data, "motherfucker".data,
  "fuckface".data, "cocksucker".data, "pisser".data, "shitface".data,
  "bitchass".data,
  "dammit".data, "bloody".data, "bugger".data, "bollocks".data,
  "prick".data, "wanker".data, "tosser".data, "git".data, "sod".data,
  "arse".data, "shag".data, "shite".data, "feck".data, "frig".data,
  "knob".data, "pillock".data, "minger".data, "munter".data, "slag".data,
  "tart".data, "scrubber".data, "muppet".data, "plonker".data,
  "numpty".data, "bell".data, "bellend".data, "twatface".data,
  "fanny".data, "minge".data, "gash".data, "snatch".data, "punani".data,
  "cooch".data,
  "retard".data, "retarded".data, "spastic".data, "mongoloid".data,
  "tard".data, "gimp".data, "cripple".data, "fatass".data, "fatso".data,
  "ho".data, "hoe".data, "skank".data, "tramp".data, "floozy".data,
  "hussy".data,
  "nigger".data, "nigga".data, "kike".data, "spic".data, "chink".data,
  "gook".data, "wetback".data, "beaner".data, "towelhead".data,
  "raghead".data, "coon".data, "jap".data, "nip".data, "slope".data,
  "zipperhead".data, "cracker".data, "honky".data, "whitey".data,
  "gringo".data, "kraut".data, "dago".data, "wop".data, "guinea".data,
  "polack".data,
  "tits".data, "boobs".data, "balls".data, "nuts".data, "boner".data,
  "horny".data, "orgasm".data, "cum".data, "masturbate".data,
  "wank".data, "blowjob".data, "anal".data, "rimjob".data,
  "handjob".data, "titfuck".data, "buttfuck".data, "assfuck".data,
  "facefuck".data, "gangbang".data, "bukkake".data, "creampie".data,
  "facial".data, "milf".data, "nympho".data, "hooker".data,
  "prostitute".data, "porn".data, "porno".data, "xxx".data,
  "weed".data, "pot".data, "joint".data, "crack".data, "meth".data,
  "dope".data, "hash".data, "ganja".data, "chronic".data, "kush".data,
  "blunt".data, "spliff".data, "bong".data,
  "nazi".data, "hitler".data, "fascist".data, "kkk".data, "klan".data,
  "aryan".data, "skinhead".data, "neonazi".data,
  "fag".data, "faggot".data, "dyke".data, "homo".data, "tranny".data,
  "shemale".data, "ladyboy".data, "sissy".data, "fairy".data,
  "pansy".data, "flamer".data,
  "pervert".data, "creep".data, "rapist".data, "pedophile".data,
  "pedo".data, "molester".data, "predator".data, "stalker".data]

/-- A node of the Trie from `src/structures/trie.ts`: an `isEndOfWord` flag
plus children as an association list in `Map` insertion order. -/
inductive Trie where
  | node (isEnd : Bool) (children : List (Char × Trie))
deriving Repr

/-- A fresh `TrieNode`. -/
def Trie.empty : Trie := .node false []

/-- The `isEndOfWord` flag. -/
def Trie.isEnd : Trie → Bool
  | .node e _ => e

/-- `children.get(c)` on a node. -/
def Trie.childGet : Trie → Char → Option Trie
  | .node _ cs, c => (cs.find? (fun p => p.1 == c)).map (·.2)

/-- `Trie.insert`: walk the word, creating missing children (appended at the
end, as `Map.set` inserts in insertion order) and updating existing ones in
place, then mark the final node. -/
def Trie.insert : List Char → Trie → Trie
  | [], .node _ cs => .node true cs
  | c :: w, .node e cs =>
    if (cs.find? (fun p => p.1 == c)).isSome then
      .node e (cs.map (fun p => if p.1 == c then (p.1, Trie.insert w p.2) else p))
    else
      .node e (cs ++ [(c, Trie.insert w (.node false []))])

/-- `Trie.contains`: exact membership. -/
def Trie.containsW (t : Trie) : List Char → Bool
  | [] => t.isEnd
  | c :: w =>
    match t.childGet c with
    | none => false
    | some child => child.containsW w

/-- A match record `{ word, start, end }` produced by the trie scans. -/
structure TMatch where
  word : List Char
  start : Nat
  stop : Nat
deriving Repr, DecidableEq

/-- `isWordChar` from the trie: ASCII alphanumeric. -/
def isWordChar (c : Char) : Bool :=
  let n := c.toNat
  decide ((48 ≤ n ∧ n ≤ 57) ∨ (65 ≤ n ∧ n ≤ 90) ∨ (97 ≤ n ∧ n ≤ 122))

/-- The inner while-loop of `findMatches`/`findSubstrings` starting at text
position `start`: follow children along the remaining text (`rest`, beginning
at absolute position `j`), recording a match at every end-of-word node that
passes the end-boundary test (`bounded` selects the `findMatches` variant). -/
def Trie.walkFrom (node : Trie) (text : List Char) (start : Nat)
    (bounded : Bool) : List Char → Nat → List TMatch
  | [], _ => []
  | c :: rest, j =>
    match node.childGet c with
    | none => []
    | some nd =>
      (if nd.isEnd &&
          (!bounded || rest.isEmpty || !isWordChar (rest.headD ' ')) then
        [⟨sliceL text start (j + 1), start, j + 1⟩]
       else []) ++ Trie.walkFrom nd text start bounded rest (j + 1)

/-- `Trie.findMatches`: all vocabulary words occurring in `text` that start
and end at word boundaries. -/
def Trie.findMatches (t : Trie) (text : List Char) : List TMatch :=
  (List.range text.length).flatMap (fun i =>
    if i > 0 && isWordChar (text.getD (i - 1) ' ') then []
    else t.walkFrom text i true (text.drop i) i)

/-- `Trie.findSubstrings`: all vocabulary words occurring anywhere in `text`. -/
def Trie.findSubstrings (t : Trie) (text : List Char) : List TMatch :=
  (List.range text.length).flatMap (fun i =>
    t.walkFrom text i false (text.drop i) i)

/-- The recursive DFS of `searchWithWildcardsFromPosition`: `'*'` in the text
matches any lowercase letter with a child in the trie (tried in character-code
order); matches are recorded on entering an end-of-word node. -/
def Trie.wSearch (node : Trie) (text : List Char) (startPos : Nat)
    (respect : Bool) : List Char → Nat → List Char → List TMatch
  | rest, pos, matched =>
    (if node.isEnd &&
        (!respect || rest.isEmpty || !isWordChar (rest.headD ' ')) then
      [⟨matched, startPos, pos⟩]
     else []) ++
    match rest with
    | [] => []
    | c :: rest' =>
      if c == '*' then
        ((List.range 26).flatMap (fun k =>
          let letter := Char.ofNat (97 + k)
          match node.childGet letter with
          | some child =>
            Trie.wSearch child text startPos respect rest' (pos + 1)
              (matched ++ [letter])
          | none => []))
      else
        match node.childGet c with
        | some child =>
          Trie.wSearch child text startPos respect rest' (pos + 1)
            (matched ++ [c])
        | none => []

/-- `Trie.findMatchesWithWildcards`. -/
def Trie.findMatchesWithWildcards (t : Trie) (text : List Char) :
    List TMatch :=
  (List.range text.length).flatMap (fun i =>
    if i > 0 && isWordChar (text.getD (i - 1) ' ') then []
    else t.wSearch text i true (text.drop i) i [])

/-- `Trie.findSubstringsWithWildcards`. -/
def Trie.findSubstringsWithWildcards (t : Trie) (text : List Char) :
    List TMatch :=
  (List.range text.length).flatMap (fun i =>
    t.wSearch text i false (text.drop i) i [])

/-- `simpleHash` from `src/core/filter.ts` (JS int32/number semantics reduce
to `(31 * h + c) % 2 ^ 31`, see the header). -/
def simpleHash (s : List Char) (seed : Nat) : Nat :=
  s.foldl (fun h c => (31 * h + c.toNat) % 2 ^ 31) seed

/-- The `FilterOptions` record with all defaults filled in. -/
structure FilterConfig where
  replacement : List Char
  customWords : List (List Char)
  customOnly : Bool
  preserveLength : Bool
deriving Repr

/-- The default configuration (`replacement: '*'`, no custom words,
`customOnly: false`, `preserveLength: true`). -/
def defaultConfig : FilterConfig :=
  ⟨"*".data, [], false, true⟩

/-- First-occurrence deduplication, the iteration order of a JS `Set` built
from a list. -/
def jsSetDedup (ws : List (List Char)) : List (List Char) :=
  ws.foldl (fun acc w => if acc.contains w then acc else acc ++ [w]) []

/-- The vocabulary actually inserted into the trie and bloom filter in
`buildOptimizedStructures`: the (deduplicated) word set, keeping only words
of length ≥ 3. -/
def vocabWords (cfg : FilterConfig) : List (List Char) :=
  (jsSetDedup
    (if cfg.customOnly then cfg.customWords
     else DEFAULT_WORDS ++ cfg.customWords)).filter
    (fun w => 3 ≤ w.length)

/-- The trie built in `buildOptimizedStructures`. -/
def trieOf (cfg : FilterConfig) : Trie :=
  (vocabWords cfg).foldl (fun t w => Trie.insert w t) Trie.empty

/-- The bloom-filter hash set built in `buildOptimizedStructures` (both
seeded hashes of every vocabulary word; membership is list membership). -/
def bloomOf (cfg : FilterConfig) : List Nat :=
  (vocabWords cfg).flatMap (fun w => [simpleHash w 1, simpleHash w 2])

/-- `bloomFilterContains`. -/
def bloomFilterContains (cfg : FilterConfig) (w : List Char) : Bool :=
  (bloomOf cfg).contains (simpleHash w 1) &&
    (bloomOf cfg).contains (simpleHash w 2)

/-- The trigger-character codes of `hasBasicProfanityChars` (in source order),
excluding the Cyrillic range which is tested separately. -/
def TRIGGER_CODES : List Nat :=
  [36, 64, 42, 49, 51, 48, 52, 53, 55, 35, 108, 124, 102, 107, 104, 98, 115,
   100, 99, 33, 70, 75, 72, 66, 83, 68, 67, 76, 171, 187, 945, 964, 956]

/-- One character of the `hasBasicProfanityChars` scan. -/
def isTriggerChar (c : Char) : Bool :=
  let n := c.toNat
  TRIGGER_CODES.contains n || decide (1040 ≤ n ∧ n ≤ 1103)

/-- `hasBasicProfanityChars`: the whole-text pre-filter character scan. -/
def hasBasicProfanityChars (text : List Char) : Bool :=
  text.any isTriggerChar

/-- The `BOUNDARY_CHARS` set of the current (second) `ProfanityFilter`
(note: `!` is present; `*`, `+`, `/`, `\`, `|` are not). -/
def BOUNDARY_CHARS : List Nat :=
  [32, 9, 10, 13, 33, 34, 35, 37, 38, 39, 40, 41, 44, 45, 46, 58, 59, 60,
   61, 62, 63, 91, 93, 94, 95, 96, 123, 125, 126]

/-- Is code `n` an ASCII letter? -/
def isLetterCode (n : Nat) : Bool :=
  decide ((65 ≤ n ∧ n ≤ 90) ∨ (97 ≤ n ∧ n ≤ 122))

/-- `isBoundaryAtPosition`: standard boundary characters, except that `(`
between two letters is treated as a substitution character, not a boundary. -/
def isBoundaryAtPosition (text : List Char) (i : Nat) : Bool :=
  let n := (text.getD i ' ').toNat
  if BOUNDARY_CHARS.contains n then
    if n == 40 then
      let prev := if i > 0 then (text.getD (i - 1) (Char.ofNat 0)).toNat else 0
      let next :=
        if i + 1 < text.length then (text.getD (i + 1) (Char.ofNat 0)).toNat
        else 0
      if isLetterCode prev && isLetterCode next then false else true
    else true
  else false

/-- `hasConsecutiveDigitsAtEnds`: two or more consecutive digits at the start
or the end of the token. -/
def hasConsecutiveDigitsAtEnds (token : List Char) : Bool :=
  let isDig := fun c : Char => decide (48 ≤ c.toNat ∧ c.toNat ≤ 57)
  2 ≤ (token.takeWhile isDig).length ||
    2 ≤ (token.reverse.takeWhile isDig).length

/-- `hasNonSubstitutionSpecialChars`: `# . / : - _ ~` anywhere in the token. -/
def hasNonSubstitutionSpecialChars (token : List Char) : Bool :=
  token.any (fun c => [35, 46, 47, 58, 45, 95, 126].contains c.toNat)

/-- `isAttachedWord`. -/
def isAttachedWord (token : List Char) : Bool :=
  hasConsecutiveDigitsAtEnds token || hasNonSubstitutionSpecialChars token

/-- The character test inside `isPotentialWordFast`. -/
def isPotentialChar (c : Char) : Bool :=
  let n := c.toNat
  decide ((48 ≤ n ∧ n ≤ 57) ∨ (65 ≤ n ∧ n ≤ 90) ∨ (97 ≤ n ∧ n ≤ 122)) ||
    [36, 64, 49, 51, 48, 52, 53, 55, 35, 108, 124, 42, 43, 33,
     945, 964, 956, 949].contains n ||
    decide (1040 ≤ n ∧ n ≤ 1103) || [402, 171, 187].contains n

/-- `isPotentialWordFast` (current version, with the attached-word guard). -/
def isPotentialWordFast (token : List Char) : Bool :=
  if token.length < 3 then false
  else if isAttachedWord token then false
  else token.any isPotentialChar

/-- The punctuation codes whose immediate repetition is "excessive". -/
def isExcessPunctCode (n : Nat) : Bool :=
  [33, 63, 46, 44, 59, 58].contains n

/-- The fold state of `hasExcessiveRepetition`. -/
structure RepState where
  maxRep : Nat
  curRep : Nat
  lastChar : Option Char
  exPunct : Bool

/-- One step of the `hasExcessiveRepetition` loop. -/
def repStep (st : RepState) (c : Char) : RepState :=
  if st.lastChar == some c then
    let cur' := st.curRep + 1
    let ex' :=
      if isExcessPunctCode c.toNat && cur' > 1 then true else st.exPunct
    ⟨max st.maxRep cur', cur', st.lastChar, ex'⟩
  else
    ⟨st.maxRep, 1, some c, st.exPunct⟩

/-- `hasExcessiveRepetition`: some punctuation character immediately repeated,
or some character immediately repeated more than 6 times. -/
def hasExcessiveRepetition (token : List Char) : Bool :=
  let st := token.foldl repStep ⟨0, 1, none, false⟩
  st.exPunct || st.maxRep > 6

/-- `compressRepeatedChars`: collapse immediate character repetitions, unless
the repetition is excessive. -/
def compressRepeatedChars (token : List Char) : List Char :=
  if hasExcessiveRepetition token then token
  else
    (token.foldl
      (fun st c =>
        if st.2 == some c then st else (st.1 ++ [c], some c))
      (([] : List Char), (none : Option Char))).1

/-- The codes of `hasSubstitutionCharacters` (current version). -/
def SUBSTITUTION_CODES : List Nat :=
  [36, 64, 42, 49, 51, 48, 52, 53, 55, 35, 124, 43, 33, 40, 50, 54, 56, 57,
   123, 91, 47, 92]

/-- `hasSubstitutionCharacters`. -/
def hasSubstitutionCharacters (token : List Char) : Bool :=
  token.any (fun c => SUBSTITUTION_CODES.contains c.toNat)

/-- Is the character kept by `extractAlphanumericWithWildcards`? -/
def isAlnumOrStar (c : Char) : Bool :=
  let n := c.toNat
  decide ((48 ≤ n ∧ n ≤ 57) ∨ (65 ≤ n ∧ n ≤ 90) ∨ (97 ≤ n ∧ n ≤ 122)) ||
    n == 42

/-- `extractAlphanumericWithWildcards`: keep ASCII alphanumerics and `*`,
then lowercase. -/
def extractAlphanumericWithWildcards (s : List Char) : List Char :=
  (s.filter isAlnumOrStar).map jsToLower

/-- `extractAlphanumericFast`: as above, with the asterisks removed. -/
def extractAlphanumericFast (s : List Char) : List Char :=
  (extractAlphanumericWithWildcards s).filter (fun c => c ≠ '*')

/-- `hasInternalWordBoundaries`: `-`, `_` or `.` strictly inside the token
(positions `1 … length - 2`). -/
def hasInternalWordBoundaries (token : List Char) : Bool :=
  ((token.drop 1).dropLast).any (fun c => [45, 95, 46].contains c.toNat)

/-- The fold state of `hasMixedCaseWordPattern`:
`(hasLower, hasUpper, caseChanges, lastWasUpper)`. -/
def mixedCaseStep (st : Bool × Bool × Nat × Bool) (ic : Nat × Char) :
    Bool × Bool × Nat × Bool :=
  let n := ic.2.toNat
  if 65 ≤ n ∧ n ≤ 90 then
    (st.1, true,
      (if !st.2.2.2 && ic.1 > 0 then st.2.2.1 + 1 else st.2.2.1), true)
  else if 97 ≤ n ∧ n ≤ 122 then
    (true, st.2.1, st.2.2.1, false)
  else st

/-- `hasMixedCaseWordPattern`: both cases present and at least one
lower-to-upper case change. -/
def hasMixedCaseWordPattern (token : List Char) : Bool :=
  let st := token.enum.foldl mixedCaseStep (false, false, 0, false)
  st.1 && st.2.1 && st.2.2.1 > 0

/-- `isLikelyCompoundWord`. -/
def isLikelyCompoundWord (originalToken _normalizedToken : List Char) : Bool :=
  if hasInternalWordBoundaries originalToken then true
  else if hasMixedCaseWordPattern originalToken then true
  else if originalToken.length > 8 then true
  else false

/-- `checkTokenVariants`: normalize, extract, bloom-gate, then
boundary/substring trie lookup according to substitution characters and the
compound-word heuristic. -/
def checkTokenVariants (cfg : FilterConfig) (token : List Char) : Bool :=
  (getAllNormalizations token).any (fun normalized =>
    let ex := extractAlphanumericWithWildcards normalized
    if 3 ≤ ex.length then
      if 6 < ex.length && !ex.contains '*' && !bloomFilterContains cfg ex then
        false
      else if hasSubstitutionCharacters token then
        if !((trieOf cfg).findMatches ex).isEmpty then true
        else if isLikelyCompoundWord token ex then
          !((trieOf cfg).findSubstrings ex).isEmpty
        else false
      else !((trieOf cfg).findMatches ex).isEmpty
    else false)

/-- `checkWildcardToken`: lowercase, substitute every character except `*`,
extract, and run the wildcard-aware trie search. -/
def checkWildcardToken (cfg : FilterConfig) (token : List Char) : Bool :=
  let lowered := token.map jsToLower
  let result :=
    lowered.flatMap (fun c =>
      if c == '*' then [c] else (charMapGet1 c).getD [c])
  let ex := extractAlphanumericWithWildcards result
  if 3 ≤ ex.length then
    let hasSub := hasSubstitutionCharacters (token.filter (fun c => c ≠ '*'))
    let ms :=
      if hasSub then (trieOf cfg).findSubstringsWithWildcards ex
      else (trieOf cfg).findMatchesWithWildcards ex
    !ms.isEmpty
  else false

/-- `containsProfanityVariantsFast` (current version). -/
def containsProfanityVariantsFast (cfg : FilterConfig) (token : List Char) :
    Bool :=
  if token.contains '*' then checkWildcardToken cfg token
  else
    let comp := compressRepeatedChars token
    if comp ≠ token then
      checkTokenVariants cfg token || checkTokenVariants cfg comp
    else checkTokenVariants cfg token

/-- `getProfanityVariantsFast` (current version): the list of matched words
pushed for one token, in push order. -/
def getProfanityVariantsFast (cfg : FilterConfig) (token : List Char) :
    List (List Char) :=
  if token.contains '*' then
    let lowered := token.map jsToLower
    let result :=
      lowered.flatMap (fun c =>
        if c == '*' then [c] else (charMapGet1 c).getD [c])
    let ex := extractAlphanumericWithWildcards result
    if 3 ≤ ex.length then
      let hasSub := hasSubstitutionCharacters (token.filter (fun c => c ≠ '*'))
      let ms :=
        if hasSub then (trieOf cfg).findSubstringsWithWildcards ex
        else (trieOf cfg).findMatchesWithWildcards ex
      ms.map (·.word)
    else []
  else
    let comp := compressRepeatedChars token
    let toCheck := if comp ≠ token then [token, comp] else [token]
    toCheck.flatMap (fun tk =>
      (getAllNormalizations tk).flatMap (fun normalized =>
        let ex := extractAlphanumericFast normalized
        if 3 ≤ ex.length then
          if 6 < ex.length && !bloomFilterContains cfg ex then []
          else if hasSubstitutionCharacters tk then
            ((trieOf cfg).findMatches ex).map (·.word) ++
              (if isLikelyCompoundWord tk ex then
                ((trieOf cfg).findSubstrings ex).map (·.word)
               else [])
          else ((trieOf cfg).findMatches ex).map (·.word)
        else []))

/-- `createReplacement` (current version, with the bracket carve-out). -/
def createReplacement (cfg : FilterConfig) (originalToken : List Char) :
    List Char :=
  let replacement := cfg.replacement
  if !cfg.preserveLength then replacement
  else
    let targetLength := originalToken.length
    if replacement.length == 1 then repeatL replacement targetLength
    else if replacement.length > targetLength then
      if replacement.headD ' ' == '[' && replacement.getLastD ' ' == ']' then
        replacement
      else replacement.take targetLength
    else if replacement.length == targetLength then replacement
    else
      repeatL replacement (targetLength / replacement.length) ++
        replacement.take (targetLength % replacement.length)

/-- The per-token output of the streaming filter: the replacement if the token
is a potential word containing a profanity variant, otherwise the token. -/
def tokenF (cfg : FilterConfig) (w : List Char) : List Char :=
  if isPotentialWordFast w then
    if containsProfanityVariantsFast cfg w then createReplacement cfg w else w
  else w

/-- Was the token replaced? (the `hasAnyChanges` contribution). -/
def tokenChanged (cfg : FilterConfig) (w : List Char) : Bool :=
  isPotentialWordFast w && containsProfanityVariantsFast cfg w

/-- The loop of `streamingFilterOptimized`: position `i` runs from 0 to
`text.length` inclusive, `ws` is the `wordStart` state (`none` = `-1`), `acc`
the accumulated result and `changed` the `hasAnyChanges` flag. -/
def sfGo (cfg : FilterConfig) (text : List Char) :
    Nat → Nat → Option Nat → List Char → Bool → List Char × Bool
  | 0, _, _, acc, changed => (acc, changed)
  | fuel + 1, i, ws, acc, changed =>
    if i ≤ text.length then
      let isB := if i < text.length then isBoundaryAtPosition text i else true
      match ws with
      | none =>
        if !isB then sfGo cfg text fuel (i + 1) (some i) acc changed
        else
          sfGo cfg text fuel (i + 1) none
            (acc ++ if i < text.length then [text.getD i ' '] else []) changed
      | some s =>
        if isB || i == text.length then
          let w := sliceL text s i
          sfGo cfg text fuel (i + 1) none
            ((acc ++ tokenF cfg w) ++
              if i < text.length then [text.getD i ' '] else [])
            (changed || tokenChanged cfg w)
        else sfGo cfg text fuel (i + 1) (some s) acc changed
    else (acc, changed)

/-- `streamingFilterOptimized`: run the loop (fuel `text.length + 1` covers
all iterations); return the original text verbatim when nothing changed. -/
def streamingFilterOptimized (cfg : FilterConfig) (text : List Char) :
    List Char :=
  let r := sfGo cfg text (text.length + 1) 0 none [] false
  if r.2 then r.1 else text

/-- The loop of `streamingContainsOptimized` (early exit on the first matched
token). -/
def scGo (cfg : FilterConfig) (text : List Char) :
    Nat → Nat → Option Nat → Bool
  | 0, _, _ => false
  | fuel + 1, i, ws =>
    if i ≤ text.length then
      let isB := if i < text.length then isBoundaryAtPosition text i else true
      match ws with
      | none =>
        if !isB then scGo cfg text fuel (i + 1) (some i)
        else scGo cfg text fuel (i + 1) none
      | some s =>
        if isB || i == text.length then
          let w := sliceL text s i
          if isPotentialWordFast w && containsProfanityVariantsFast cfg w then
            true
          else scGo cfg text fuel (i + 1) none
        else scGo cfg text fuel (i + 1) (some s)
    else false

/-- `streamingContainsOptimized`. -/
def streamingContainsOptimized (cfg : FilterConfig) (text : List Char) :
    Bool :=
  scGo cfg text (text.length + 1) 0 none

/-- The loop of `analyze`: collect `getProfanityVariantsFast` of every
potential word, in scan order, duplicates preserved. -/
def azGo (cfg : FilterConfig) (text : List Char) :
    Nat → Nat → Option Nat → List (List Char) → List (List Char)
  | 0, _, _, found => found
  | fuel + 1, i, ws, found =>
    if i ≤ text.length then
      let isB := if i < text.length then isBoundaryAtPosition text i else true
      match ws with
      | none =>
        if !isB then azGo cfg text fuel (i + 1) (some i) found
        else azGo cfg text fuel (i + 1) none found
      | some s =>
        if isB || i == text.length then
          let w := sliceL text s i
          azGo cfg text fuel (i + 1) none
            (found ++
              if isPotentialWordFast w then getProfanityVariantsFast cfg w
              else [])
        else azGo cfg text fuel (i + 1) (some s) found
    else found

/-- The result record of `detectRepetitivePattern`. -/
structure DetectResult where
  hasPattern : Bool
  patternLength : Nat
  cleanPattern : List Char
deriving Repr, DecidableEq

/-- The repetition-counting loop of `detectRepetitivePattern`: count the
further whole copies of `pattern` from `offset` on (stopping at the first
mismatch). -/
def countReps (text pattern : List Char) (L : Nat) :
    Nat → Nat → Nat
  | 0, _ => 0
  | fuel + 1, offset =>
    if 0 < L ∧ offset + L ≤ text.length then
      if sliceL text offset (offset + L) == pattern then
        1 + countReps text pattern L fuel (offset + L)
      else 0
    else 0

/-- The candidate-length loop of `detectRepetitivePattern`. -/
def detectGo (text : List Char) : List Nat → DetectResult
  | [] => ⟨false, 0, []⟩
  | L :: rest =>
    if 3 * L ≥ text.length then detectGo text rest
    else
      let pattern := text.take L
      if text.length ≥ 3 * L then
        if text.getD L ' ' == pattern.getD 0 ' ' &&
            text.getD (L + L / 2) ' ' == pattern.getD (L / 2) ' ' &&
            text.getD (2 * L - 1) ' ' == pattern.getD (L - 1) ' ' then
          if pattern == sliceL text L (2 * L) then
            let reps := 2 + countReps text pattern L text.length (2 * L)
            if reps ≥ 3 then ⟨true, L, pattern⟩ else detectGo text rest
          else detectGo text rest
        else detectGo text rest
      else detectGo text rest

/-- `detectRepetitivePattern`: try pattern lengths 35, 70, 50, 100 (in that
order) on texts of length ≥ 140. -/
def detectRepetitivePattern (text : List Char) : DetectResult :=
  if text.length < 140 then ⟨false, 0, []⟩
  else detectGo text [35, 70, 50, 100]

/-- `filterRepetitiveText`. -/
def filterRepetitiveText (cfg : FilterConfig) (text : List Char)
    (patternLength : Nat) (cleanPattern : List Char) : List Char :=
  let filteredPattern := streamingFilterOptimized cfg cleanPattern
  if filteredPattern ≠ cleanPattern then
    let repetitions := text.length / patternLength
    let remainder := text.drop (repetitions * patternLength)
    repeatL filteredPattern repetitions ++
      (if remainder.length > 0 then streamingFilterOptimized cfg remainder
       else [])
  else
    let fullPatternLength := text.length / patternLength * patternLength
    let remainder := text.drop fullPatternLength
    if remainder.length == 0 then text
    else
      let filteredRemainder := streamingFilterOptimized cfg remainder
      if filteredRemainder == remainder then text
      else text.take fullPatternLength ++ filteredRemainder

/-- `ProfanityFilter.filter`. -/
def filter (cfg : FilterConfig) (text : List Char) : List Char :=
  if text.isEmpty then text
  else if !hasBasicProfanityChars text then text
  else
    let info := detectRepetitivePattern text
    if info.hasPattern then
      filterRepetitiveText cfg text info.patternLength info.cleanPattern
    else streamingFilterOptimized cfg text

/-- The 35-character benchmark prefix hard-coded in `contains`. -/
def BENCH35 : List Char :=
  "Very long text that goes on and on ".data

/-- `ProfanityFilter.contains`, including its hard-coded benchmark fast paths
and the 70-character repetitive-text path. -/
def contains (cfg : FilterConfig) (text : List Char) : Bool :=
  if text.isEmpty then false
  else if !hasBasicProfanityChars text then false
  else if text.length == 3504 && text.take 35 == BENCH35 then
    text.drop (text.length - 4) == "shit".data
  else if (3000 < text.length && text.length < 4000) &&
      text.take 35 == BENCH35 then
    streamingContainsOptimized cfg (text.drop (text.length - 20))
  else if 200 < text.length && sliceL text 0 70 == sliceL text 70 140 then
    if streamingContainsOptimized cfg (text.take 70) then true
    else
      let fullPatternLength := text.length / 70 * 70
      let remainder := text.drop fullPatternLength
      if remainder.length == 0 then false
      else streamingContainsOptimized cfg remainder
  else streamingContainsOptimized cfg text

/-- The `FilterResult` record. -/
structure FilterResult where
  clean : List Char
  hasProfanity : Bool
  found : List (List Char)
deriving Repr, DecidableEq

/-- `ProfanityFilter.analyze` (current version: `found` is an array, duplicates
preserved; `clean` re-runs `filter` only when something was found). -/
def analyze (cfg : FilterConfig) (text : List Char) : FilterResult :=
  if text.isEmpty then ⟨text, false, []⟩
  else if !hasBasicProfanityChars text then ⟨text, false, []⟩
  else
    let found := azGo cfg text (text.length + 1) 0 none []
    ⟨if found.length > 0 then filter cfg text else text,
     found.length > 0, found⟩

/-- The module-level convenience `filter` with no options: the default
configuration. -/
def filterDefault (text : List Char) : List Char :=
  filter defaultConfig text

/-- The module-level convenience `contains` with no options. -/
def containsDefault (text : List Char) : Bool :=
  contains defaultConfig text

/-- The module-level convenience `analyze` with no options. -/
def analyzeDefault (text : List Char) : FilterResult :=
  analyze defaultConfig text


set_option maxRecDepth 100000

/-! ## Helper lemmas -/

/-- `repeatL` length. -/
theorem repeatL_length (s : List Char) (n : Nat) :
    (repeatL s n).length = n * s.length := by
  simp [repeatL, List.length_flatten, List.map_replicate, List.sum_replicate,
    smul_eq_mul]

/-- Taking `a * L + b` characters (with `b < L`) from enough copies of `r`
yields `a` full copies plus a prefix of length `b`. -/
theorem take_repeatL_aux (r : List Char) :
    ∀ a b m, b < r.length → a + 1 ≤ m →
      (repeatL r m).take (a * r.length + b) = repeatL r a ++ r.take b := by
  intro a
  induction a with
  | zero =>
    intro b m hb hm
    obtain ⟨m', rfl⟩ : ∃ m', m = m' + 1 := ⟨m - 1, by omega⟩
    simp only [Nat.zero_mul, Nat.zero_add, repeatL, List.replicate_succ,
      List.flatten_cons]
    rw [List.take_append_of_le_length (by omega)]
    simp [repeatL]
  | succ a ih =>
    intro b m hb hm
    obtain ⟨m', rfl⟩ : ∃ m', m = m' + 1 := ⟨m - 1, by omega⟩
    have h1 : (a + 1) * r.length + b = r.length + (a * r.length + b) := by
      ring
    rw [h1]
    simp only [repeatL, List.replicate_succ, List.flatten_cons]
    rw [List.take_append_eq_append_take, List.take_of_length_le (by omega),
      Nat.add_sub_cancel_left]
    have h2 := ih b m' hb (by omega)
    simp only [repeatL] at h2
    rw [h2, List.append_assoc]

/-- The shorter-replacement formula of `createReplacement` is
repeat-then-truncate. -/
theorem take_repeatL (r : List Char) (hr2 : 2 ≤ r.length) (n : Nat)
    (hn : 1 ≤ n) :
    repeatL r (n / r.length) ++ r.take (n % r.length) =
      (repeatL r n).take n := by
  have hb : n % r.length < r.length := Nat.mod_lt _ (by omega)
  have h4 : n / r.length ≤ n / 2 := Nat.div_le_div_left hr2 (by norm_num)
  have hm : n / r.length + 1 ≤ n := by omega
  have h := take_repeatL_aux r (n / r.length) (n % r.length) n hb hm
  rw [Nat.div_add_mod'] at h
  exact h.symm

/-- The case analysis of `createReplacement`. -/
theorem createReplacement_cases (cfg : FilterConfig) (w : List Char) :
    (cfg.preserveLength = false →
      createReplacement cfg w = cfg.replacement) ∧
    (cfg.preserveLength = true → cfg.replacement.length = 1 →
      createReplacement cfg w = repeatL cfg.replacement w.length) ∧
    (cfg.preserveLength = true → 2 ≤ cfg.replacement.length →
      cfg.replacement.length = w.length →
      createReplacement cfg w = cfg.replacement) ∧
    (cfg.preserveLength = true → 2 ≤ cfg.replacement.length →
      cfg.replacement.length < w.length →
      createReplacement cfg w =
        (repeatL cfg.replacement w.length).take w.length) ∧
    (cfg.preserveLength = true → 2 ≤ cfg.replacement.length →
      w.length < cfg.replacement.length →
      createReplacement cfg w =
        if cfg.replacement.headD ' ' = '[' ∧ cfg.replacement.getLastD ' ' = ']'
        then cfg.replacement else cfg.replacement.take w.length) := by
  refine ⟨?_, ?_, ?_, ?_, ?_⟩
  · intro h
    simp [createReplacement, h]
  · intro h h1
    simp [createReplacement, h, h1]
  · intro h h2 heq
    simp only [createReplacement, h, Bool.not_true]
    rw [if_neg (by exact Bool.false_ne_true)]
    split_ifs with h1 hgt hbr hco
    · exfalso; simp only [beq_iff_eq] at h1; omega
    · exfalso; omega
    · exfalso; omega
    · rfl
    · exfalso; simp only [beq_iff_eq] at hco; omega
  · intro h h2 hlt
    simp only [createReplacement, h, Bool.not_true]
    rw [if_neg (by exact Bool.false_ne_true)]
    split_ifs with h1 hgt hbr hco
    · exfalso; simp only [beq_iff_eq] at h1; omega
    · exfalso; omega
    · exfalso; omega
    · exfalso; simp only [beq_iff_eq] at hco; omega
    · exact take_repeatL cfg.replacement h2 w.length (by omega)
  · intro h h2 hgt0
    simp only [createReplacement, h, Bool.not_true]
    rw [if_neg (by exact Bool.false_ne_true),
      if_neg (by simp only [beq_iff_eq]; omega), if_pos hgt0]
    by_cases hbr : cfg.replacement.headD ' ' = '[' ∧
        cfg.replacement.getLastD ' ' = ']'
    · rw [if_pos (by simp only [Bool.and_eq_true, beq_iff_eq]; exact hbr),
        if_pos hbr]
    · rw [if_neg (by simp only [Bool.and_eq_true, beq_iff_eq]; tauto),
        if_neg hbr]

/-! ## C1: clean text short-circuits all three operations -/

/-- C1: for text containing none of the pre-filter trigger characters,
`filter` returns it unchanged, `contains` returns `false`, and `analyze`
returns the text as clean with no findings. -/
theorem c1_prefilter_short_circuit (t : List Char)
    (h : hasBasicProfanityChars t = false) :
    filterDefault t = t ∧ containsDefault t = false ∧
      analyzeDefault t = ⟨t, false, []⟩ := by
  refine ⟨?_, ?_, ?_⟩
  · simp [filterDefault, filter, h]
  · simp [containsDefault, contains, h]
  · simp [analyzeDefault, analyze, h]

/-- Witness for C1 at the trigger-free text `"you are mean"`. -/
theorem c1_prefilter_short_circuit_witness :
    hasBasicProfanityChars "you are mean".data = false ∧
      (filterDefault "you are mean".data = "you are mean".data ∧
        containsDefault "you are mean".data = false ∧
        analyzeDefault "you are mean".data =
          ⟨"you are mean".data, false, []⟩) :=
  ⟨by decide, c1_prefilter_short_circuit "you are mean".data (by decide)⟩

/-! ## C4: the replacement policy -/

/-- C4: with `preserveLength` disabled the raw replacement is used verbatim;
with it enabled, a length-1 replacement is repeated to the token length, an
equal-length replacement is used as-is, a shorter one is repeated and
truncated to fill the token length exactly, and a longer one is truncated
unless it is bracket-delimited, in which case it is used in full; and
`filter("shit", { replacement: "[CENSORED]", preserveLength: false })`
returns `"[CENSORED]"`. -/
theorem c4_replacement_policy :
    (∀ (cfg : FilterConfig) (w : List Char),
      (cfg.preserveLength = false →
        createReplacement cfg w = cfg.replacement) ∧
      (cfg.preserveLength = true → cfg.replacement.length = 1 →
        createReplacement cfg w = repeatL cfg.replacement w.length) ∧
      (cfg.preserveLength = true → 2 ≤ cfg.replacement.length →
        cfg.replacement.length = w.length →
        createReplacement cfg w = cfg.replacement) ∧
      (cfg.preserveLength = true → 2 ≤ cfg.replacement.length →
        cfg.replacement.length < w.length →
        createReplacement cfg w =
          (repeatL cfg.replacement w.length).take w.length) ∧
      (cfg.preserveLength = true → 2 ≤ cfg.replacement.length →
        w.length < cfg.replacement.length →
        createReplacement cfg w =
          if cfg.replacement.headD ' ' = '[' ∧
              cfg.replacement.getLastD ' ' = ']'
          then cfg.replacement else cfg.replacement.take w.length)) ∧
    filter ⟨"[CENSORED]".data, [], false, false⟩ "shit".data =
      "[CENSORED]".data :=
  ⟨createReplacement_cases, by decide⟩

/-- Witness for C4 at a concrete configuration in each guarded case. -/
theorem c4_replacement_policy_witness :
    ((⟨"ab".data, [], false, true⟩ : FilterConfig).preserveLength = true ∧
      2 ≤ ("ab".data : List Char).length ∧
      ("ab".data : List Char).length < ("shit".data : List Char).length) ∧
    createReplacement ⟨"ab".data, [], false, true⟩ "shit".data =
      (repeatL "ab".data ("shit".data : List Char).length).take
        ("shit".data : List Char).length :=
  ⟨⟨rfl, by decide, by decide⟩,
    (c4_replacement_policy.1 ⟨"ab".data, [], false, true⟩
      "shit".data).2.2.2.1 rfl (by decide) (by decide)⟩

/-! ## C10: the hard-coded benchmark fast path of `contains` -/

/-- C10: on any 3504-character text starting with the hard-coded benchmark
prefix, `contains` answers exactly whether the last four characters are
`"shit"` (the fixed prefix contains the trigger character `l`, so the
pre-scan always passes; nothing else in the text is consulted). -/
theorem c10_benchmark_fast_path (t : List Char) (h1 : t.length = 3504)
    (h2 : t.take 35 = BENCH35) :
    containsDefault t = (t.drop (t.length - 4) == "shit".data) := by
  have hl : 'l' ∈ t :=
    List.mem_of_mem_take (n := 35) (l := t) (by rw [h2]; decide)
  have hb : hasBasicProfanityChars t = true :=
    List.any_eq_true.mpr ⟨'l', hl, by decide⟩
  have hne : t.isEmpty = false := by
    cases t
    · simp at h1
    · rfl
  simp [containsDefault, contains, hne, hb, h1, h2]

/-- The benchmark input: the prefix repeated 100 times plus `"shit"`. -/
def c10Input : List Char := repeatL BENCH35 100 ++ "shit".data

theorem c10Input_length : c10Input.length = 3504 := by
  simp [c10Input, repeatL_length]
  decide

theorem c10Input_take : c10Input.take 35 = BENCH35 := by
  have h : c10Input = BENCH35 ++ (repeatL BENCH35 99 ++ "shit".data) := by
    simp only [c10Input, repeatL, List.replicate_succ, List.flatten_cons,
      List.append_assoc]
  rw [h]
  rw [List.take_append_of_le_length (by decide)]
  decide

/-- Witness for C10 at the 3504-character benchmark input itself. -/
theorem c10_benchmark_fast_path_witness :
    c10Input.length = 3504 ∧ c10Input.take 35 = BENCH35 ∧
      containsDefault c10Input = true := by
  refine ⟨c10Input_length, c10Input_take, ?_⟩
  rw [c10_benchmark_fast_path c10Input c10Input_length c10Input_take]
  rw [c10Input_length]
  have hd : c10Input.drop 3500 = "shit".data := by
    have h : c10Input.drop 3500 =
        (repeatL BENCH35 100).drop 3500 ++ "shit".data := by
      rw [c10Input, List.drop_append_of_le_length]
      rw [repeatL_length]; decide
    rw [h, List.drop_of_length_le]
    · rfl
    · rw [repeatL_length]; decide
  rw [hd]
  decide

/-! ## C8: normalization order in the matching path -/

theorem splitJoin_nil (fr tgt : List Char) : splitJoin fr tgt [] = [] := by
  unfold splitJoin
  split_ifs <;> simp [sjGo]

theorem sjGo_of_not_infix (fr tgt : List Char) :
    ∀ fuel s, hasInfixL fr s = false → sjGo fr tgt fuel s = s := by
  intro fuel
  induction fuel with
  | zero => intro s _; cases s <;> simp [sjGo]
  | succ fuel ih =>
    intro s hs
    cases s with
    | nil => simp [sjGo]
    | cons c rest =>
      simp only [hasInfixL, Bool.or_eq_false_iff] at hs
      simp only [sjGo, hs.1, Bool.false_and]
      rw [if_neg (by exact Bool.false_ne_true), ih rest hs.2]

theorem splitJoin_of_not_infix (fr tgt s : List Char)
    (h : hasInfixL fr s = false) : splitJoin fr tgt s = s := by
  unfold splitJoin
  split_ifs with h1
  · rfl
  · exact sjGo_of_not_infix fr tgt s.length s h

/-- The guarded multi-substitution pass equals the unconditional rule fold. -/
theorem multiPass_eq (s : List Char) :
    multiPass s =
      MULTI_CHAR_SUBS.foldl (fun acc p => splitJoin p.1 p.2 acc) s := by
  unfold multiPass
  generalize MULTI_CHAR_SUBS = rules
  induction rules generalizing s with
  | nil => rfl
  | cons r rules ih =>
    simp only [List.foldl_cons]
    by_cases hr : hasInfixL r.1 s = true
    · rw [if_pos hr]
      exact ih _
    · rw [if_neg hr, splitJoin_of_not_infix r.1 r.2 s (by simpa using hr)]
      exact ih _

/-- The character pass of `getAllNormalizations` as a `flatMap`. -/
theorem primaryPass_fst (t : List Char) :
    (primaryPass t).1 =
      t.flatMap (fun c => (charMapGet1 (jsToLower c)).getD [jsToLower c]) := by
  unfold primaryPass
  suffices h : ∀ acc b,
      (t.foldl (fun st c =>
        let lc := jsToLower c
        (st.1 ++ ((charMapGet1 lc).getD [lc]), st.2 || ambHas lc)) (acc, b)).1 =
      acc ++ t.flatMap
        (fun c => (charMapGet1 (jsToLower c)).getD [jsToLower c]) by
    simpa using h [] false
  induction t with
  | nil => intro acc b; simp
  | cons c rest ih =>
    intro acc b
    simp only [List.foldl_cons, List.flatMap_cons]
    rw [ih]
    simp [List.append_assoc]

/-- The normalization order the code actually uses for matching: lowercase
and the single-character map first (per character), then the
multi-character rules. -/
def normalizeSingleThenMulti (t : List Char) : List Char :=
  MULTI_CHAR_SUBS.foldl (fun acc p => splitJoin p.1 p.2 acc)
    (t.flatMap (fun c => (charMapGet1 (jsToLower c)).getD [jsToLower c]))

/-- C8 counterexample: the matching-path normalization applies the
single-character map before the multi-character rules.  On `"vvank"` the
claimed order (multi rules first, as `normalizeText` does) would produce
`"wank"` — a vocabulary word — but `getAllNormalizations` produces only
`"uuank"` (each `v` is consumed by the single-character rule `v → u` before
the multi-character rule `vv → w` can see it), and `contains("vvank")` is
`false`. -/
theorem c8_counterexample_order :
    getAllNormalizations "vvank".data = ["uuank".data] ∧
      normalizeText "vvank".data = "wank".data ∧
      containsDefault "vvank".data = false :=
  ⟨by decide, by decide, by decide⟩

/-- C8 (amended): the primary normalization used for matching lowercases
each character and applies the single-character substitution map first, and
only then the multi-character substitution rules (in list order); so rules
whose patterns survive the single-character pass, such as `ph → f`, still
apply, while rules whose pattern characters are consumed by it, such as
`vv → w`, never fire. -/
theorem c8_single_before_multi (t : List Char) :
    (getAllNormalizations t).headD [] = normalizeSingleThenMulti t := by
  by_cases ht : t.isEmpty
  · have h0 : t = [] := by simpa [List.isEmpty_iff] using ht
    subst h0
    simp only [getAllNormalizations]
    simp only [normalizeSingleThenMulti, List.flatMap_nil, if_pos rfl]
    generalize MULTI_CHAR_SUBS = rules
    induction rules with
    | nil => rfl
    | cons r rules ih => simpa [splitJoin_nil] using ih
  · simp only [getAllNormalizations, ht, Bool.not_eq_true]
    rw [multiPass_eq, primaryPass_fst]
    by_cases h2 : (primaryPass t).2
    · simp only [h2, Bool.not_true]
      cases hv : ambVariantScan
          (MULTI_CHAR_SUBS.foldl (fun acc p => splitJoin p.1 p.2 acc)
            (t.flatMap
              (fun c => (charMapGet1 (jsToLower c)).getD [jsToLower c])))
          (MULTI_CHAR_SUBS.foldl (fun acc p => splitJoin p.1 p.2 acc)
            (t.flatMap
              (fun c => (charMapGet1 (jsToLower c)).getD [jsToLower c])))
          0 <;> simp [normalizeSingleThenMulti]
    · simp only [h2, Bool.not_false]
      simp [normalizeSingleThenMulti]

theorem containsW_empty (v : List Char) : Trie.empty.containsW v = false := by
  cases v <;> simp [Trie.empty, Trie.containsW, Trie.isEnd, Trie.childGet]

theorem isEnd_insert_cons (c : Char) (w : List Char) (t : Trie) :
    (Trie.insert (c :: w) t).isEnd = t.isEnd := by
  obtain ⟨e, cs⟩ := t
  simp only [Trie.insert]
  split_ifs <;> rfl

theorem childGet_insert_self (c : Char) (w : List Char) (t : Trie) :
    (Trie.insert (c :: w) t).childGet c =
      some (Trie.insert w ((t.childGet c).getD Trie.empty)) := by
  obtain ⟨e, cs⟩ := t
  simp only [Trie.insert]
  split_ifs with hex
  · simp only [Trie.childGet]
    induction cs with
    | nil => simp at hex
    | cons p rest ih =>
      by_cases hp : (p.1 == c) = true
      · obtain ⟨p1, p2⟩ := p
        simp only [beq_iff_eq] at hp
        subst hp
        simp only [List.map_cons]
        rw [if_pos (by simp), List.find?_cons_of_pos _ (by simp),
          List.find?_cons_of_pos _ (by simp)]
        simp
      · obtain ⟨p1, p2⟩ := p
        have hf : (p1 == c) = false := by simpa using hp
        have hex' : (List.find? (fun p => p.1 == c) rest).isSome = true := by
          rw [List.find?_cons_of_neg _ (by simp [hf])] at hex
          exact hex
        simp only [List.map_cons]
        rw [if_neg (by simp [hf]), List.find?_cons_of_neg _ (by simp [hf]),
          List.find?_cons_of_neg _ (by simp [hf])]
        exact ih hex'
  · simp only [Trie.childGet, List.find?_append]
    have hnone : cs.find? (fun p => p.1 == c) = none := by
      rcases h : cs.find? (fun p => p.1 == c) with _ | x
      · exact h
      · exact absurd (by simp [h]) hex
    rw [hnone]
    simp [Trie.empty]

/-- Updating the values of key-`c` entries does not change a lookup for a
different key `d`. -/
theorem find?_map_update_ne (w : List Char) (c d : Char) (hdc : d ≠ c) :
    ∀ rest : List (Char × Trie),
      List.find? (fun p => p.1 == d)
        (rest.map (fun p =>
          if (p.1 == c) = true then (p.1, Trie.insert w p.2) else p)) =
      List.find? (fun p => p.1 == d) rest := by
  intro rest
  induction rest with
  | nil => rfl
  | cons p rest ih =>
    obtain ⟨p1, p2⟩ := p
    simp only [List.map_cons]
    by_cases hp : (p1 == c) = true
    · have hp1d : ((p1 : Char) == d) = false := by
        simp only [beq_iff_eq] at hp
        simp only [beq_eq_false_iff_ne]
        subst hp
        exact fun hh => hdc hh.symm
      rw [if_pos (by simpa using hp), List.find?_cons_of_neg _ (by simp [hp1d]),
        List.find?_cons_of_neg _ (by simp [hp1d])]
      exact ih
    · rw [if_neg (by simpa using hp)]
      by_cases hpd : (p1 == d) = true
      · rw [List.find?_cons_of_pos _ (by simp [hpd]),
          List.find?_cons_of_pos _ (by simp [hpd])]
      · rw [List.find?_cons_of_neg _ (by simp [hpd]),
          List.find?_cons_of_neg _ (by simp [hpd])]
        exact ih

theorem childGet_insert_ne (c : Char) (w : List Char) (t : Trie) (d : Char)
    (h : (d == c) = false) :
    (Trie.insert (c :: w) t).childGet d = t.childGet d := by
  obtain ⟨e, cs⟩ := t
  have hdc : d ≠ c := by simpa using h
  have hcd : (c == d) = false := by
    simpa using fun hh => hdc hh.symm
  simp only [Trie.insert]
  split_ifs with hex
  · simp only [Trie.childGet]
    congr 1
    exact find?_map_update_ne w c d hdc cs
  · simp only [Trie.childGet, List.find?_append]
    have hone : List.find? (fun p => p.1 == d)
        [(c, Trie.insert w (Trie.node false []))] = none := by
      rw [List.find?_cons_of_neg _ (by simp [hcd])]
      rfl
    rw [hone]
    simp

/-- Membership after one insertion. -/
theorem containsW_insert (w : List Char) :
    ∀ (t : Trie) (v : List Char),
      (Trie.insert w t).containsW v = ((v == w) || t.containsW v) := by
  induction w with
  | nil =>
    intro t v
    obtain ⟨e, cs⟩ := t
    cases v with
    | nil => simp [Trie.insert, Trie.containsW, Trie.isEnd]
    | cons d v' => simp [Trie.insert, Trie.containsW, Trie.childGet]
  | cons c w' ih =>
    intro t v
    cases v with
    | nil =>
      rw [show (Trie.insert (c :: w') t).containsW [] =
          (Trie.insert (c :: w') t).isEnd from rfl]
      rw [isEnd_insert_cons]
      obtain ⟨e, cs⟩ := t
      simp [Trie.containsW, Trie.isEnd]
    | cons d v' =>
      by_cases hdc : (d == c) = true
      · simp only [beq_iff_eq] at hdc
        subst hdc
        rw [show (Trie.insert (d :: w') t).containsW (d :: v') =
            (match (Trie.insert (d :: w') t).childGet d with
             | none => false
             | some child => child.containsW v') from rfl]
        rw [childGet_insert_self]
        simp only []
        rw [ih]
        rcases hg : t.childGet d with _ | child
        · simp only [Option.getD_none, Option.getD_some]
          rw [show (t.containsW (d :: v')) =
              (match t.childGet d with
               | none => false
               | some child => child.containsW v') from rfl]
          rw [hg]
          simp [containsW_empty]
        · simp only [Option.getD_some]
          rw [show (t.containsW (d :: v')) =
              (match t.childGet d with
               | none => false
               | some child => child.containsW v') from rfl]
          rw [hg]
          simp
      · have h' : (d == c) = false := by simpa using hdc
        rw [show (Trie.insert (c :: w') t).containsW (d :: v') =
            (match (Trie.insert (c :: w') t).childGet d with
             | none => false
             | some child => child.containsW v') from rfl]
        rw [childGet_insert_ne c w' t d h']
        rw [show (t.containsW (d :: v')) =
            (match t.childGet d with
             | none => false
             | some child => child.containsW v') from rfl]
        have hvw : ((d :: v' : List Char) == c :: w') = false := by
          simp only [List.cons_beq_cons, h', Bool.false_and]
        rw [hvw]
        simp

/-- Membership in a fold of insertions. -/
theorem containsW_foldl (ws : List (List Char)) :
    ∀ (t : Trie) (v : List Char),
      (ws.foldl (fun t w => Trie.insert w t) t).containsW v =
        (ws.contains v || t.containsW v) := by
  induction ws with
  | nil => intro t v; simp
  | cons w ws ih =>
    intro t v
    simp only [List.foldl_cons, List.contains_cons]
    rw [ih, containsW_insert]
    cases hv : v == w <;> simp [hv]

/-- The trie built by `buildOptimizedStructures` contains exactly the
vocabulary words. -/
theorem containsW_trieOf (cfg : FilterConfig) (v : List Char) :
    (trieOf cfg).containsW v = (vocabWords cfg).contains v := by
  rw [trieOf, containsW_foldl, containsW_empty]
  simp

/-- On an all-word-character string the boundary-respecting walk of
`findMatches` finds something iff the trie contains the whole string. -/
theorem walkFrom_all_wordchar (text : List Char) :
    ∀ (s : List Char) (node : Trie) (start j : Nat),
      s ≠ [] → (∀ c ∈ s, isWordChar c = true) →
      ((node.walkFrom text start true s j).isEmpty = false ↔
        node.containsW s = true) := by
  intro s
  induction s with
  | nil => intro node start j hne _; exact absurd rfl hne
  | cons c rest ih =>
    intro node start j _ hwc
    rw [show Trie.walkFrom node text start true (c :: rest) j =
        (match node.childGet c with
         | none => []
         | some nd =>
           (if nd.isEnd &&
               (!true || rest.isEmpty || !isWordChar (rest.headD ' ')) then
             [⟨sliceL text start (j + 1), start, j + 1⟩]
            else []) ++ Trie.walkFrom nd text start true rest (j + 1))
      from rfl]
    rw [show (Trie.containsW node (c :: rest)) =
        (match node.childGet c with
         | none => false
         | some child => child.containsW rest) from rfl]
    rcases hg : node.childGet c with _ | nd
    · simp
    · simp only []
      cases rest with
      | nil =>
        simp only [Trie.walkFrom, List.append_nil, Trie.containsW]
        cases he : nd.isEnd <;> simp [he]
      | cons c2 rest2 =>
        have hwc2 : isWordChar ((c2 :: rest2).headD ' ') = true :=
          hwc c2 (by simp)
        have hcond : (nd.isEnd &&
            (!true || (c2 :: rest2).isEmpty ||
              !isWordChar ((c2 :: rest2).headD ' '))) = false := by
          rw [hwc2]
          simp
        rw [hcond]
        have hrec := ih nd start (j + 1) (by simp)
          (fun d hd => hwc d (by simp [hd]))
        simpa using hrec

/-- On an all-word-character string, `findMatches` finds something iff the
whole string is a vocabulary word of the trie. -/
theorem findMatches_all_wordchar (t : Trie) (s : List Char)
    (hwc : ∀ c ∈ s, isWordChar c = true) (hne : s ≠ []) :
    ((t.findMatches s).isEmpty = false ↔ t.containsW s = true) := by
  obtain ⟨n, hn⟩ : ∃ n, s.length = n + 1 := by
    cases s with
    | nil => exact absurd rfl hne
    | cons a l => exact ⟨l.length, rfl⟩
  have hsplit : t.findMatches s = t.walkFrom s 0 true s 0 := by
    unfold Trie.findMatches
    rw [hn, List.range_succ_eq_map]
    simp only [List.flatMap_cons]
    have hzero : ¬(0 > 0 && isWordChar (s.getD (0 - 1) ' ')) = true := by
      simp
    rw [if_neg hzero, List.drop_zero]
    have hrest : ((List.map Nat.succ (List.range n)).flatMap (fun i =>
        if i > 0 && isWordChar (s.getD (i - 1) ' ') then []
        else t.walkFrom s i true (s.drop i) i)) = [] := by
      rw [List.flatMap_eq_nil_iff]
      intro i hi
      simp only [List.mem_map, List.mem_range] at hi
      obtain ⟨k, hk, rfl⟩ := hi
      have hklt : k < s.length := by omega
      have hmem : s.getD k ' ' ∈ s := by
        rw [List.getD_eq_getElem s ' ' hklt]
        exact List.getElem_mem hklt
      rw [if_pos]
      simp only [Nat.succ_sub_one, Bool.and_eq_true, decide_eq_true_eq]
      exact ⟨by omega, hwc _ hmem⟩
    rw [hrest, List.append_nil]
  rw [hsplit]
  exact walkFrom_all_wordchar s s t 0 0 hne hwc

/-- Vocabulary words always pass the bloom-filter gate. -/
theorem bloomFilterContains_of_vocab (cfg : FilterConfig) (v : List Char)
    (hv : v ∈ vocabWords cfg) : bloomFilterContains cfg v = true := by
  unfold bloomFilterContains bloomOf
  have h1 : simpleHash v 1 ∈ (vocabWords cfg).flatMap
      (fun w => [simpleHash w 1, simpleHash w 2]) :=
    List.mem_flatMap.mpr ⟨v, hv, by simp⟩
  have h2 : simpleHash v 2 ∈ (vocabWords cfg).flatMap
      (fun w => [simpleHash w 1, simpleHash w 2]) :=
    List.mem_flatMap.mpr ⟨v, hv, by simp⟩
  rw [Bool.and_eq_true]
  exact ⟨List.elem_eq_true_of_mem h1, List.elem_eq_true_of_mem h2⟩


/-- Is `c` an ASCII letter? -/
def isAsciiLetter (c : Char) : Bool :=
  isLetterCode c.toNat

/-- Is `c` a lowercase ASCII letter? -/
def isLowerAlpha (c : Char) : Bool :=
  decide (97 ≤ c.toNat ∧ c.toNat ≤ 122)

theorem isAsciiLetter_lt (c : Char) (h : isAsciiLetter c = true) :
    c.toNat < 128 := by
  simp only [isAsciiLetter, isLetterCode, decide_eq_true_eq] at h
  omega

/-- On an ASCII letter, lowercasing followed by the single-character map
yields lowercase ASCII letters. -/
theorem mapped_all_lower (c : Char) (h : isAsciiLetter c = true) :
    ((charMapGet1 (jsToLower c)).getD [jsToLower c]).all isLowerAlpha =
      true := by
  have hall : ∀ k ∈ List.range 128, isAsciiLetter (Char.ofNat k) = true →
      ((charMapGet1 (jsToLower (Char.ofNat k))).getD
        [jsToLower (Char.ofNat k)]).all isLowerAlpha = true := by decide
  have hc := hall c.toNat (List.mem_range.mpr (isAsciiLetter_lt c h))
  rw [Char.ofNat_toNat] at hc
  exact hc h

/-- The character pass of `getAllNormalizations` turns an all-letter token
into lowercase letters. -/
theorem primaryPass_all_lower (t : List Char)
    (ht : t.all isAsciiLetter = true) :
    (primaryPass t).1.all isLowerAlpha = true := by
  rw [primaryPass_fst, List.all_eq_true]
  intro d hd
  rcases List.mem_flatMap.mp hd with ⟨c, hc, hdc⟩
  exact List.all_eq_true.mp
    (mapped_all_lower c (List.all_eq_true.mp ht c hc)) d hdc

/-- `sjGo` preserves an all-characters invariant satisfied by the
replacement text. -/
theorem sjGo_all (P : Char → Bool) (fr tgt : List Char)
    (htgt : tgt.all P = true) :
    ∀ fuel s, s.all P = true → (sjGo fr tgt fuel s).all P = true := by
  intro fuel
  induction fuel with
  | zero => intro s hs; cases s <;> simp_all [sjGo]
  | succ fuel ih =>
    intro s hs
    cases s with
    | nil => simp [sjGo]
    | cons c rest =>
      simp only [sjGo]
      by_cases hp : (fr.isPrefixOf (c :: rest) && !fr.isEmpty) = true
      · rw [if_pos hp, List.all_append, Bool.and_eq_true]
        refine ⟨htgt, ih _ ?_⟩
        rw [List.all_eq_true]
        intro d hd
        exact List.all_eq_true.mp hs d
          (List.mem_cons_of_mem c (List.mem_of_mem_drop hd))
      · rw [if_neg hp]
        rw [List.all_cons, Bool.and_eq_true] at hs
        rw [List.all_cons, hs.1, ih rest hs.2]
        rfl

/-- `splitJoin` preserves an all-characters invariant satisfied by the
replacement text. -/
theorem splitJoin_all (P : Char → Bool) (fr tgt s : List Char)
    (htgt : tgt.all P = true) (hs : s.all P = true) :
    (splitJoin fr tgt s).all P = true := by
  unfold splitJoin
  split_ifs
  · exact hs
  · exact sjGo_all P fr tgt htgt s.length s hs

/-- A fold of `splitJoin` substitutions preserves an all-characters
invariant satisfied by every rule target. -/
theorem foldl_splitJoin_all (P : Char → Bool) :
    ∀ rules : List (List Char × List Char),
      (∀ r ∈ rules, r.2.all P = true) →
      ∀ s, s.all P = true →
        (rules.foldl (fun acc p => splitJoin p.1 p.2 acc) s).all P = true := by
  intro rules
  induction rules with
  | nil => intro _ s hs; simpa using hs
  | cons r rules ih =>
    intro hr s hs
    simp only [List.foldl_cons]
    exact ih (fun x hx => hr x (List.mem_cons_of_mem r hx)) _
      (splitJoin_all P r.1 r.2 s (hr r (List.mem_cons_self r rules)) hs)

/-- The ambiguous-character variant of an all-lowercase primary
normalization is all-lowercase. -/
theorem ambVariantScan_all (P : Char → Bool)
    (hamb : ∀ e ∈ AMBIGUOUS_CHARS, e.2.all P = true)
    (primary : List Char) (hp : primary.all P = true) :
    ∀ (l : List Char) (i : Nat) (v : List Char),
      ambVariantScan primary l i = some v → v.all P = true := by
  intro l
  induction l with
  | nil => intro i v hv; simp [ambVariantScan] at hv
  | cons c rest ih =>
    intro i v hv
    rcases hg : ambGet c with _ | opts
    · simp only [ambVariantScan, hg] at hv
      exact ih _ _ hv
    · simp only [ambVariantScan, hg] at hv
      by_cases hlen : opts.length > 1
      · rw [if_pos hlen] at hv
        by_cases halt : opts.getD 1 (opts.getD 0 c) ≠ c
        · rw [if_pos halt] at hv
          have hvv : primary.set i (opts.getD 1 (opts.getD 0 c)) = v :=
            Option.some.inj hv
          subst hvv
          have hopts : opts.all P = true := by
            unfold ambGet at hg
            rcases hf : AMBIGUOUS_CHARS.find? (fun e => e.1 == c) with _ | e
            · rw [hf] at hg
              simp at hg
            · rw [hf] at hg
              have he2 : e.2 = opts := by
                simpa using hg
              rw [← he2]
              exact hamb e (List.mem_of_find?_eq_some hf)
          rw [List.all_eq_true]
          intro d hd
          rcases List.mem_or_eq_of_mem_set hd with hmem | heq
          · exact List.all_eq_true.mp hp d hmem
          · subst heq
            refine List.all_eq_true.mp hopts _ ?_
            rw [List.getD_eq_getElem opts (opts.getD 0 c) hlen]
            exact List.getElem_mem hlen
        · rw [if_neg halt] at hv
          exact ih _ _ hv
      · rw [if_neg hlen] at hv
        exact ih _ _ hv

/-- Every normalization variant of an all-letter token consists of
lowercase letters. -/
theorem norms_all_lower (t : List Char) (ht : t.all isAsciiLetter = true) :
    ∀ v ∈ getAllNormalizations t, v.all isLowerAlpha = true := by
  intro v hv
  have hprim : (multiPass (primaryPass t).1).all isLowerAlpha = true := by
    rw [multiPass_eq]
    exact foldl_splitJoin_all isLowerAlpha MULTI_CHAR_SUBS (by decide) _
      (primaryPass_all_lower t ht)
  unfold getAllNormalizations at hv
  split at hv
  · have h0 : t = [] := by
      simp_all [List.isEmpty_iff]
    subst h0
    rw [List.mem_singleton] at hv
    subst hv
    rfl
  · simp only [] at hv
    rw [show multiPass (primaryPass t).1 =
      multiPass (primaryPass t).1 from rfl] at hv
    generalize hX : multiPass (primaryPass t).1 = X at hv hprim
    split at hv
    · rw [List.mem_singleton] at hv
      subst hv
      exact hprim
    · split at hv
      · rename_i w hscan
        rw [List.mem_cons, List.mem_singleton] at hv
        rcases hv with hv' | hv'
        · subst hv'
          exact hprim
        · subst hv'
          exact ambVariantScan_all isLowerAlpha (by decide) _ hprim _ 0 _ hscan
      · rw [List.mem_singleton] at hv
        subst hv
        exact hprim

/-- `extractAlphanumericWithWildcards` is the identity on lowercase-letter
strings. -/
theorem extract_of_lower (v : List Char) (hv : v.all isLowerAlpha = true) :
    extractAlphanumericWithWildcards v = v := by
  unfold extractAlphanumericWithWildcards
  have h1 : v.filter isAlnumOrStar = v := by
    rw [List.filter_eq_self]
    intro a ha
    have ha' := List.all_eq_true.mp hv a ha
    simp only [isLowerAlpha, decide_eq_true_eq] at ha'
    simp only [isAlnumOrStar, Bool.or_eq_true, decide_eq_true_eq]
    left
    right
    right
    exact ha'
  rw [h1]
  have h2 : ∀ a ∈ v, jsToLower a = a := by
    intro a ha
    have ha' := List.all_eq_true.mp hv a ha
    simp only [isLowerAlpha, decide_eq_true_eq] at ha'
    simp only [jsToLower]
    rw [if_neg (by omega), if_neg (by omega), if_neg (by omega)]
  rw [List.map_congr_left h2]
  simp

/-- Lowercase letters are word characters for the trie scans. -/
theorem wordChar_of_lower (c : Char) (h : isLowerAlpha c = true) :
    isWordChar c = true := by
  simp only [isLowerAlpha, decide_eq_true_eq] at h
  simp only [isWordChar, decide_eq_true_eq]
  omega

/-- A string all of whose characters satisfy `P` does not contain a
character violating `P`. -/
theorem all_contains_false (P : Char → Bool) (a : Char) (hP : P a = false) :
    ∀ v : List Char, v.all P = true → v.contains a = false := by
  intro v
  induction v with
  | nil => intro _; rfl
  | cons c rest ih =>
    intro hv
    rw [List.all_cons, Bool.and_eq_true] at hv
    rw [List.contains_cons, Bool.or_eq_false_iff]
    refine ⟨?_, ih hv.2⟩
    by_contra hne
    rw [Bool.not_eq_false, beq_iff_eq] at hne
    rw [hne, hv.1] at hP
    exact Bool.false_ne_true hP.symm

/-- No ASCII-letter code is a substitution-character code. -/
theorem subst_not_letter (n : Nat) (h : isLetterCode n = true) :
    SUBSTITUTION_CODES.contains n = false := by
  have hall : ∀ k ∈ List.range 128, isLetterCode k = true →
      SUBSTITUTION_CODES.contains k = false := by decide
  have hlt : n < 128 := by
    simp only [isLetterCode, decide_eq_true_eq] at h
    omega
  exact hall n (List.mem_range.mpr hlt) h

/-- An all-letter token has no substitution characters. -/
theorem hasSub_letters (t : List Char) (ht : t.all isAsciiLetter = true) :
    hasSubstitutionCharacters t = false := by
  unfold hasSubstitutionCharacters
  by_contra h
  rw [Bool.not_eq_false, List.any_eq_true] at h
  rcases h with ⟨c, hc, hcp⟩
  have hl : isLetterCode c.toNat = true := List.all_eq_true.mp ht c hc
  rw [subst_not_letter c.toNat hl] at hcp
  exact Bool.false_ne_true hcp

/-- `compressRepeatedChars` preserves an all-characters invariant. -/
theorem compress_all (P : Char → Bool) (t : List Char)
    (ht : t.all P = true) : (compressRepeatedChars t).all P = true := by
  unfold compressRepeatedChars
  split_ifs
  · exact ht
  · suffices h : ∀ u : List Char, u.all P = true →
        ∀ (acc : List Char) (lc : Option Char), acc.all P = true →
        ((u.foldl (fun st c =>
          if st.2 == some c then st else (st.1 ++ [c], some c))
          (acc, lc)).1).all P = true from h t ht [] none rfl
    intro u
    induction u with
    | nil => intro _ acc lc hacc; simpa using hacc
    | cons c rest ih =>
      intro hu acc lc hacc
      rw [List.all_cons, Bool.and_eq_true] at hu
      simp only [List.foldl_cons]
      by_cases hc : (lc == some c) = true
      · rw [if_pos hc]
        exact ih hu.2 acc lc hacc
      · rw [if_neg hc]
        refine ih hu.2 (acc ++ [c]) (some c) ?_
        rw [List.all_append, List.all_cons]
        simp [hacc, hu.1]

/-- Congruence for `List.any` under pointwise-equal predicates. -/
theorem any_congr_chars (l : List (List Char)) (p q : List Char → Bool)
    (h : ∀ x ∈ l, p x = q x) : l.any p = l.any q := by
  induction l with
  | nil => rfl
  | cons a l ih =>
    simp only [List.any_cons]
    rw [h a (List.mem_cons_self a l), ih (fun x hx =>
      h x (List.mem_cons_of_mem a hx))]

/-- On an all-letter token, `checkTokenVariants` reduces to whole-variant
vocabulary lookup: it fires iff some normalization variant of the token is
itself a vocabulary word (of length at least 3). -/
theorem checkTokenVariants_letters (cfg : FilterConfig) (tk : List Char)
    (htk : tk.all isAsciiLetter = true) :
    checkTokenVariants cfg tk =
      (getAllNormalizations tk).any
        (fun v => decide (3 ≤ v.length) && (vocabWords cfg).contains v) := by
  unfold checkTokenVariants
  refine any_congr_chars _ _ _ ?_
  intro v hv
  simp only []
  have hvl : v.all isLowerAlpha = true := norms_all_lower tk htk v hv
  rw [extract_of_lower v hvl]
  by_cases h3 : 3 ≤ v.length
  · rw [if_pos h3]
    have hstar : v.contains '*' = false :=
      all_contains_false isLowerAlpha '*' (by decide) v hvl
    have hwc : ∀ c ∈ v, isWordChar c = true := fun c hc =>
      wordChar_of_lower c (List.all_eq_true.mp hvl c hc)
    have hne : v ≠ [] := by
      intro h0
      rw [h0] at h3
      simp at h3
    have hfm : (!((trieOf cfg).findMatches v).isEmpty) =
        (vocabWords cfg).contains v := by
      have hiff := findMatches_all_wordchar (trieOf cfg) v hwc hne
      rw [containsW_trieOf] at hiff
      rcases Bool.eq_false_or_eq_true
          ((Trie.findMatches (trieOf cfg) v).isEmpty) with he | he
      · rw [he]
        rcases Bool.eq_false_or_eq_true ((vocabWords cfg).contains v) with
          hc | hc
        · exact absurd ((hiff.mpr hc).symm.trans he) Bool.false_ne_true
        · rw [hc]
          rfl
      · rw [he, hiff.mp he]
        rfl
    by_cases hgate : (decide (6 < v.length) && !v.contains '*' &&
        !bloomFilterContains cfg v) = true
    · rw [if_pos hgate]
      simp only [Bool.and_eq_true, Bool.not_eq_true'] at hgate
      have hnv : (vocabWords cfg).contains v = false := by
        rcases Bool.eq_false_or_eq_true ((vocabWords cfg).contains v) with
          hc | hc
        · exfalso
          have hmem : v ∈ vocabWords cfg := List.mem_of_elem_eq_true hc
          rw [bloomFilterContains_of_vocab cfg v hmem] at hgate
          exact Bool.false_ne_true hgate.2.symm
        · exact hc
      rw [hnv, Bool.and_false]
    · rw [if_neg hgate, hasSub_letters tk htk]
      rw [if_neg Bool.false_ne_true, hfm, decide_eq_true h3, Bool.true_and]
  · rw [if_neg h3, decide_eq_false h3, Bool.false_and]

/-- On an all-letter token, the whole matching decision reduces to
whole-variant vocabulary lookup over the variants of the token and of its
repeated-character compression. -/
theorem cpvf_letters (cfg : FilterConfig) (w : List Char)
    (hw : w.all isAsciiLetter = true) :
    containsProfanityVariantsFast cfg w =
      ((getAllNormalizations w ++
        getAllNormalizations (compressRepeatedChars w)).any
        (fun v => decide (3 ≤ v.length) && (vocabWords cfg).contains v)) := by
  simp only [containsProfanityVariantsFast]
  rw [all_contains_false isAsciiLetter '*' (by decide) w hw]
  rw [if_neg Bool.false_ne_true, List.any_append]
  have hcomp : (compressRepeatedChars w).all isAsciiLetter = true :=
    compress_all isAsciiLetter w hw
  by_cases hc : compressRepeatedChars w ≠ w
  · rw [if_pos hc, checkTokenVariants_letters cfg w hw,
      checkTokenVariants_letters cfg _ hcomp]
  · rw [if_neg hc]
    push_neg at hc
    rw [checkTokenVariants_letters cfg w hw, hc, Bool.or_self]

/-- C2 counterexample: `"sshit"` is a purely alphabetic token that is not a
vocabulary word, is not flagged as a likely compound, and contains the
vocabulary word `"shit"` only as a strict proper substring — yet
`contains("sshit")` is `true`, because the repeated-character compression
of the token (`"shit"`) is itself checked against the vocabulary. -/
theorem c2_counterexample_compression :
    "shit".data ∈ vocabWords defaultConfig ∧
      "sshit".data.all isAsciiLetter = true ∧
      hasInfixL "shit".data "sshit".data = true ∧
      "sshit".data ≠ "shit".data ∧
      "sshit".data ∉ vocabWords defaultConfig ∧
      isLikelyCompoundWord "sshit".data "sshit".data = false ∧
      containsDefault "sshit".data = true :=
  ⟨by decide, by decide, by decide, by decide, by decide, by decide,
    by decide⟩

/-- C2 (amended): on a purely alphabetic token, the matching decision is
exactly whole-variant vocabulary lookup — a match fires iff some
normalization variant of the token, or of its repeated-character
compression, is itself a vocabulary word of length at least 3 (so a
vocabulary word occurring only as a strict proper substring of the token
never fires by itself); moreover `contains("Class assignment") = false`
and `contains("You are an ass") = true`. -/
theorem c2_token_match_soundness :
    (∀ (cfg : FilterConfig) (w : List Char), w.all isAsciiLetter = true →
      containsProfanityVariantsFast cfg w =
        ((getAllNormalizations w ++
          getAllNormalizations (compressRepeatedChars w)).any
          (fun v => decide (3 ≤ v.length) && (vocabWords cfg).contains v))) ∧
      containsDefault "Class assignment".data = false ∧
      containsDefault "You are an ass".data = true :=
  ⟨fun cfg w hw => cpvf_letters cfg w hw, by decide, by decide⟩

/-- C2 witness: the soundness equation applied to the spec's own example
token `"classic"`, whose only variant is itself; no vocabulary word fires. -/
theorem c2_token_match_soundness_witness :
    containsProfanityVariantsFast defaultConfig "classic".data = false := by
  have h := c2_token_match_soundness.1 defaultConfig "classic".data
    (by decide)
  rw [h]
  decide

/-! ## A structural specification of the streaming token scan -/

/-- The end of the token currently being scanned: the first position
`j ≥ i` that is past the end of the text or is a boundary position.
(`wordStart` stays set exactly while positions are non-boundary.) -/
def tokenEndFrom (text : List Char) (i : Nat) : Nat :=
  if i < text.length ∧ isBoundaryAtPosition text i = false then
    tokenEndFrom text (i + 1)
  else i
termination_by text.length - i
decreasing_by omega

theorem tokenEndFrom_ge (text : List Char) :
    ∀ i, i ≤ tokenEndFrom text i := by
  intro i
  rw [tokenEndFrom]
  split_ifs with h
  · have := tokenEndFrom_ge text (i + 1)
    omega
  · exact Nat.le_refl i
termination_by i => text.length - i
decreasing_by omega

theorem tokenEndFrom_le (text : List Char) :
    ∀ i, i ≤ text.length → tokenEndFrom text i ≤ text.length := by
  intro i hi
  rw [tokenEndFrom]
  split_ifs with h
  · exact tokenEndFrom_le text (i + 1) h.1
  · exact hi
termination_by i => text.length - i
decreasing_by
  rcases h with ⟨h1, _⟩
  omega

theorem tokenEndFrom_isB (text : List Char) :
    ∀ i, tokenEndFrom text i < text.length →
      isBoundaryAtPosition text (tokenEndFrom text i) = true := by
  intro i hj
  rw [tokenEndFrom] at hj ⊢
  split_ifs at hj ⊢ with h
  · exact tokenEndFrom_isB text (i + 1) hj
  · rw [not_and_or] at h
    rcases h with h | h
    · exact absurd hj h
    · simpa using h
termination_by i => text.length - i
decreasing_by omega

theorem tokenEndFrom_between (text : List Char) :
    ∀ i m, i ≤ m → m < tokenEndFrom text i →
      m < text.length ∧ isBoundaryAtPosition text m = false := by
  intro i m him hm
  rw [tokenEndFrom] at hm
  split_ifs at hm with h
  · rcases Nat.eq_or_lt_of_le him with he | hlt
    · exact he ▸ h
    · exact tokenEndFrom_between text (i + 1) m hlt hm
  · omega
termination_by i m => text.length - i
decreasing_by omega

theorem tokenEndFrom_step (text : List Char) (i : Nat)
    (h1 : i < text.length) (h2 : isBoundaryAtPosition text i = false) :
    tokenEndFrom text i = tokenEndFrom text (i + 1) := by
  rw [tokenEndFrom]
  rw [if_pos ⟨h1, h2⟩]

theorem tokenEndFrom_here (text : List Char) (i : Nat)
    (h : ¬(i < text.length ∧ isBoundaryAtPosition text i = false)) :
    tokenEndFrom text i = i := by
  rw [tokenEndFrom]
  rw [if_neg h]

/-- The specification of the `streamingFilterOptimized` loop from position
`i` on: boundary characters are copied; each maximal run of non-boundary
positions is a token, passed through `tokenF`; the second component is the
`hasAnyChanges` flag. -/
def sfSpec (cfg : FilterConfig) (text : List Char) (i : Nat) :
    List Char × Bool :=
  if h : i < text.length then
    if isBoundaryAtPosition text i then
      let r := sfSpec cfg text (i + 1)
      (text.getD i ' ' :: r.1, r.2)
    else
      let j := tokenEndFrom text (i + 1)
      let w := sliceL text i j
      let r := sfSpec cfg text (j + 1)
      (tokenF cfg w ++
        ((if j < text.length then [text.getD j ' '] else []) ++ r.1),
       tokenChanged cfg w || r.2)
  else ([], false)
termination_by text.length - i
decreasing_by
  · omega
  · have := tokenEndFrom_ge text (i + 1)
    omega

theorem sfSpec_stop (cfg : FilterConfig) (text : List Char) (i : Nat)
    (h : text.length ≤ i) : sfSpec cfg text i = ([], false) := by
  rw [sfSpec]
  rw [dif_neg (by omega)]

theorem sfSpec_bnd (cfg : FilterConfig) (text : List Char) (i : Nat)
    (h1 : i < text.length) (h2 : isBoundaryAtPosition text i = true) :
    sfSpec cfg text i =
      (text.getD i ' ' :: (sfSpec cfg text (i + 1)).1,
       (sfSpec cfg text (i + 1)).2) := by
  rw [sfSpec]
  rw [dif_pos h1, if_pos h2]

theorem sfSpec_tok (cfg : FilterConfig) (text : List Char) (i : Nat)
    (h1 : i < text.length) (h2 : isBoundaryAtPosition text i = false) :
    sfSpec cfg text i =
      (tokenF cfg (sliceL text i (tokenEndFrom text (i + 1))) ++
        ((if tokenEndFrom text (i + 1) < text.length then
            [text.getD (tokenEndFrom text (i + 1)) ' '] else []) ++
          (sfSpec cfg text (tokenEndFrom text (i + 1) + 1)).1),
       tokenChanged cfg (sliceL text i (tokenEndFrom text (i + 1))) ||
         (sfSpec cfg text (tokenEndFrom text (i + 1) + 1)).2) := by
  rw [sfSpec]
  rw [dif_pos h1, if_neg (by simp [h2])]

theorem sfGo_gt (cfg : FilterConfig) (text : List Char) :
    ∀ fuel i ws acc ch, text.length < i →
      sfGo cfg text fuel i ws acc ch = (acc, ch) := by
  intro fuel i ws acc ch hi
  cases fuel with
  | zero => rfl
  | succ fuel =>
    simp only [sfGo]
    rw [if_neg (by omega)]

/-- The loop of `streamingFilterOptimized` computes `sfSpec` (stated jointly
for the no-open-token and open-token loop states). -/
theorem sfGo_spec (cfg : FilterConfig) (text : List Char) :
    ∀ fuel : Nat,
      (∀ i acc ch, text.length + 1 ≤ fuel + i →
        sfGo cfg text fuel i none acc ch =
          (acc ++ (sfSpec cfg text i).1, ch || (sfSpec cfg text i).2)) ∧
      (∀ i s acc ch, text.length + 1 ≤ fuel + i → s < i →
          i ≤ text.length →
        sfGo cfg text fuel i (some s) acc ch =
          (acc ++ (tokenF cfg (sliceL text s (tokenEndFrom text i)) ++
            ((if tokenEndFrom text i < text.length then
                [text.getD (tokenEndFrom text i) ' '] else []) ++
              (sfSpec cfg text (tokenEndFrom text i + 1)).1)),
           (ch || tokenChanged cfg (sliceL text s (tokenEndFrom text i))) ||
             (sfSpec cfg text (tokenEndFrom text i + 1)).2)) := by
  intro fuel
  induction fuel with
  | zero =>
    constructor
    · intro i acc ch hf
      rw [sfSpec_stop cfg text i (by omega)]
      simp [sfGo]
    · intro i s acc ch hf hs hi
      omega
  | succ fuel ih =>
    constructor
    · intro i acc ch hf
      by_cases hlen : i ≤ text.length
      · simp only [sfGo]
        rw [if_pos hlen]
        by_cases hlt : i < text.length
        · rw [if_pos hlt]
          by_cases hb : isBoundaryAtPosition text i = true
          · rw [hb]
            simp only [Bool.not_true]
            rw [if_neg Bool.false_ne_true, if_pos hlt]
            rw [ih.1 (i + 1) (acc ++ [text.getD i ' ']) ch (by omega)]
            rw [sfSpec_bnd cfg text i hlt hb]
            simp
          · have hb' : isBoundaryAtPosition text i = false := by
              simpa using hb
            rw [hb']
            simp only [Bool.not_false]
            rw [if_pos trivial]
            rw [ih.2 (i + 1) i acc ch (by omega) (by omega) (by omega)]
            rw [sfSpec_tok cfg text i hlt hb']
            simp [Bool.or_assoc]
        · rw [if_neg hlt]
          simp only [Bool.not_true]
          rw [if_neg Bool.false_ne_true, if_neg hlt]
          rw [ih.1 (i + 1) (acc ++ []) ch (by omega)]
          rw [sfSpec_stop cfg text i (by omega),
            sfSpec_stop cfg text (i + 1) (by omega)]
          simp
      · rw [sfGo_gt cfg text (fuel + 1) i none acc ch (by omega)]
        rw [sfSpec_stop cfg text i (by omega)]
        simp
    · intro i s acc ch hf hs hi
      simp only [sfGo]
      rw [if_pos hi]
      by_cases hlt : i < text.length
      · rw [if_pos hlt]
        by_cases hb : isBoundaryAtPosition text i = true
        · rw [if_pos (show (isBoundaryAtPosition text i ||
              (i == text.length)) = true by simp [hb])]
          rw [ih.1 (i + 1)
            ((acc ++ tokenF cfg (sliceL text s i)) ++
              if i < text.length then [text.getD i ' '] else [])
            (ch || tokenChanged cfg (sliceL text s i)) (by omega)]
          rw [tokenEndFrom_here text i (by simp [hb])]
          rw [if_pos hlt]
          simp
        · have hb' : isBoundaryAtPosition text i = false := by
            simpa using hb
          rw [if_neg (show ¬(isBoundaryAtPosition text i ||
              (i == text.length)) = true by
            simp only [hb', Bool.false_or, beq_iff_eq]
            omega)]
          rw [ih.2 (i + 1) s acc ch (by omega) (by omega) (by omega)]
          rw [tokenEndFrom_step text i hlt hb']
      · rw [if_neg hlt]
        rw [if_pos (show ((true : Bool) || (i == text.length)) = true by
          simp)]
        rw [ih.1 (i + 1)
          ((acc ++ tokenF cfg (sliceL text s i)) ++
            if i < text.length then [text.getD i ' '] else [])
          (ch || tokenChanged cfg (sliceL text s i)) (by omega)]
        rw [tokenEndFrom_here text i (fun hc => hlt hc.1)]
        rw [if_neg hlt]
        rw [sfSpec_stop cfg text (i + 1) (by omega)]
        simp

/-- A token with a false `hasAnyChanges` contribution passes through
unchanged. -/
theorem tokenF_of_not_changed (cfg : FilterConfig) (w : List Char)
    (h : tokenChanged cfg w = false) : tokenF cfg w = w := by
  unfold tokenChanged at h
  rw [Bool.and_eq_false_iff] at h
  unfold tokenF
  rcases h with h | h
  · rw [h]
    rw [if_neg Bool.false_ne_true]
  · split_ifs with h1 h2
    · rw [h] at h2
      exact absurd h2 Bool.false_ne_true
    · rfl
    · rfl

/-- When the change flag is false, the spec output is the original text. -/
theorem sfSpec_unchanged (cfg : FilterConfig) (text : List Char) :
    ∀ i, (sfSpec cfg text i).2 = false →
      (sfSpec cfg text i).1 = text.drop i := by
  intro i h
  by_cases hlt : i < text.length
  · by_cases hb : isBoundaryAtPosition text i = true
    · rw [sfSpec_bnd cfg text i hlt hb] at h ⊢
      simp only [] at h ⊢
      rw [sfSpec_unchanged cfg text (i + 1) h]
      rw [List.drop_eq_getElem_cons hlt, List.getD_eq_getElem text ' ' hlt]
    · have hb' : isBoundaryAtPosition text i = false := by simpa using hb
      rw [sfSpec_tok cfg text i hlt hb'] at h ⊢
      simp only [] at h ⊢
      rw [Bool.or_eq_false_iff] at h
      rw [tokenF_of_not_changed cfg _ h.1]
      rw [sfSpec_unchanged cfg text _ h.2]
      have hj1 : i + 1 ≤ tokenEndFrom text (i + 1) := tokenEndFrom_ge text _
      have hj2 : tokenEndFrom text (i + 1) ≤ text.length :=
        tokenEndFrom_le text (i + 1) (by omega)
      by_cases hjl : tokenEndFrom text (i + 1) < text.length
      · rw [if_pos hjl]
        rw [List.getD_eq_getElem text ' ' hjl]
        simp only [sliceL, List.singleton_append]
        rw [← List.drop_eq_getElem_cons hjl]
        conv_rhs =>
          rw [← List.take_append_drop (tokenEndFrom text (i + 1)) text]
        rw [List.drop_append_of_le_length
          (show i ≤ (List.take (tokenEndFrom text (i + 1)) text).length by
            rw [List.length_take]
            omega)]
      · have hje : tokenEndFrom text (i + 1) = text.length := by omega
        rw [if_neg hjl, hje]
        simp only [sliceL]
        rw [List.take_of_length_le (Nat.le_refl _)]
        rw [List.drop_of_length_le
          (show text.length ≤ text.length + 1 by omega)]
        simp
  · rw [sfSpec_stop cfg text i (by omega)]
    rw [List.drop_of_length_le (by omega)]
termination_by i => text.length - i
decreasing_by
  · omega
  · have := tokenEndFrom_ge text (i + 1)
    omega

/-- `streamingFilterOptimized` always computes `sfSpec` (when nothing
changed the two coincide on the original text). -/
theorem streaming_eq_spec (cfg : FilterConfig) (text : List Char) :
    streamingFilterOptimized cfg text = (sfSpec cfg text 0).1 := by
  unfold streamingFilterOptimized
  rw [(sfGo_spec cfg text (text.length + 1)).1 0 [] false (by omega)]
  simp only [List.nil_append, Bool.false_or]
  by_cases h : (sfSpec cfg text 0).2 = true
  · rw [if_pos h]
  · have h' : (sfSpec cfg text 0).2 = false := by simpa using h
    rw [if_neg h]
    rw [sfSpec_unchanged cfg text 0 h']
    rfl

/-- When every token keeps its length, the spec output has the length of
the remaining text. -/
theorem sfSpec_length (cfg : FilterConfig)
    (hrepl : ∀ w, (tokenF cfg w).length = w.length) (text : List Char) :
    ∀ i, (sfSpec cfg text i).1.length = text.length - i := by
  intro i
  by_cases hlt : i < text.length
  · by_cases hb : isBoundaryAtPosition text i = true
    · rw [sfSpec_bnd cfg text i hlt hb]
      simp only [List.length_cons]
      rw [sfSpec_length cfg hrepl text (i + 1)]
      omega
    · have hb' : isBoundaryAtPosition text i = false := by simpa using hb
      rw [sfSpec_tok cfg text i hlt hb']
      simp only [List.length_append]
      rw [sfSpec_length cfg hrepl text (tokenEndFrom text (i + 1) + 1)]
      rw [hrepl]
      have hj1 : i + 1 ≤ tokenEndFrom text (i + 1) := tokenEndFrom_ge text _
      have hj2 : tokenEndFrom text (i + 1) ≤ text.length :=
        tokenEndFrom_le text (i + 1) (by omega)
      have hsl : (sliceL text i (tokenEndFrom text (i + 1))).length =
          tokenEndFrom text (i + 1) - i := by
        unfold sliceL
        rw [List.length_drop, List.length_take]
        omega
      rw [hsl]
      by_cases hjl : tokenEndFrom text (i + 1) < text.length
      · rw [if_pos hjl]
        simp only [List.length_singleton]
        omega
      · rw [if_neg hjl]
        simp only [List.length_nil]
        omega
  · rw [sfSpec_stop cfg text i (by omega)]
    simp only [List.length_nil]
    omega
termination_by i => text.length - i
decreasing_by
  · omega
  · have := tokenEndFrom_ge text (i + 1)
    omega

/-- With `preserveLength` and a single-character replacement, every token
keeps its length. -/
theorem tokenF_length (cfg : FilterConfig) (hp : cfg.preserveLength = true)
    (hr : cfg.replacement.length = 1) (w : List Char) :
    (tokenF cfg w).length = w.length := by
  unfold tokenF
  split_ifs with h1 h2
  · unfold createReplacement
    rw [hp]
    simp only [Bool.not_true]
    rw [if_neg Bool.false_ne_true]
    rw [if_pos (by simp [hr])]
    rw [repeatL_length, hr]
    omega
  · rfl
  · rfl

/-- With `preserveLength` and a single-character replacement, the streaming
filter preserves the total length. -/
theorem streaming_length (cfg : FilterConfig)
    (hp : cfg.preserveLength = true) (hr : cfg.replacement.length = 1)
    (text : List Char) :
    (streamingFilterOptimized cfg text).length = text.length := by
  rw [streaming_eq_spec]
  rw [sfSpec_length cfg (tokenF_length cfg hp hr) text 0]
  omega

/-- What a successful pattern detection guarantees: the reported pattern is
the text prefix of the reported length, which is positive and less than a
third of the text length. -/
theorem detectGo_inv (text : List Char) :
    ∀ Ls : List Nat, (∀ L ∈ Ls, 0 < L) →
      (detectGo text Ls).hasPattern = true →
      (detectGo text Ls).cleanPattern =
        text.take (detectGo text Ls).patternLength ∧
      0 < (detectGo text Ls).patternLength ∧
      3 * (detectGo text Ls).patternLength < text.length := by
  intro Ls
  induction Ls with
  | nil =>
    intro _ h
    simp [detectGo] at h
  | cons L rest ih =>
    intro hpos h
    have hpos' : ∀ M ∈ rest, 0 < M := fun M hM =>
      hpos M (List.mem_cons_of_mem L hM)
    simp only [detectGo] at h ⊢
    split_ifs at h ⊢ with h1 h2 h3 h4 h5
    · exact ih hpos' h
    · refine ⟨rfl, hpos L (List.mem_cons_self L rest), ?_⟩
      show 3 * L < text.length
      omega
    · exact ih hpos' h
    · exact ih hpos' h
    · exact ih hpos' h
    · exact ih hpos' h
  
theorem detect_inv (text : List Char)
    (h : (detectRepetitivePattern text).hasPattern = true) :
    (detectRepetitivePattern text).cleanPattern =
      text.take (detectRepetitivePattern text).patternLength ∧
    0 < (detectRepetitivePattern text).patternLength ∧
    3 * (detectRepetitivePattern text).patternLength < text.length := by
  by_cases h1 : text.length < 140
  · simp only [detectRepetitivePattern, if_pos h1] at h
    simp at h
  · simp only [detectRepetitivePattern, if_neg h1] at h ⊢
    exact detectGo_inv text [35, 70, 50, 100] (by decide) h

/-- With `preserveLength` and a single-character replacement, the
repetitive-text fast path preserves the total length. -/
theorem filterRepetitiveText_length (cfg : FilterConfig)
    (hp : cfg.preserveLength = true) (hr : cfg.replacement.length = 1)
    (text : List Char) (L : Nat) (hL : 0 < L) (hLlen : L ≤ text.length)
    (P : List Char) (hP : P = text.take L) :
    (filterRepetitiveText cfg text L P).length = text.length := by
  have hPlen : P.length = L := by
    rw [hP, List.length_take]
    omega
  unfold filterRepetitiveText
  simp only []
  split_ifs with h1 h2 h3 h4
  · rw [List.length_append, repeatL_length]
    rw [streaming_length cfg hp hr, hPlen]
    rw [streaming_length cfg hp hr, List.length_drop]
    have hmul : text.length / L * L ≤ text.length := Nat.div_mul_le_self _ _
    omega
  · rw [List.length_append, repeatL_length]
    rw [streaming_length cfg hp hr, hPlen]
    simp only [List.length_nil]
    have h2' : (List.drop (text.length / L * L) text).length = 0 := by
      omega
    rw [List.length_drop] at h2'
    have hmul : text.length / L * L ≤ text.length := Nat.div_mul_le_self _ _
    omega
  · rfl
  · rfl
  · rw [List.length_append, List.length_take]
    rw [streaming_length cfg hp hr, List.length_drop]
    have hmul : text.length / L * L ≤ text.length := Nat.div_mul_le_self _ _
    omega

/-- C3: with `preserveLength` (the default) and a single-character
replacement string, `filter` preserves the exact character length of its
input, on every path (streaming and repetitive fast path). -/
theorem c3_length_preservation (cfg : FilterConfig) (t : List Char)
    (hp : cfg.preserveLength = true) (hr : cfg.replacement.length = 1) :
    (filter cfg t).length = t.length := by
  unfold filter
  split_ifs with h1 h2
  · rfl
  · rfl
  · simp only []
    split_ifs with h3
    · rcases detect_inv t h3 with ⟨hclean, hpos, hlt⟩
      exact filterRepetitiveText_length cfg hp hr t
        (detectRepetitivePattern t).patternLength hpos (by omega)
        (detectRepetitivePattern t).cleanPattern hclean
    · exact streaming_length cfg hp hr t

/-- C3 witness: at the default configuration, filtering
`"you bullshit artist"` (which replaces the middle token) preserves the
length, 19. -/
theorem c3_length_preservation_witness :
    filterDefault "you bullshit artist".data =
        "you ******** artist".data ∧
      (filter defaultConfig "you bullshit artist".data).length =
        "you bullshit artist".data.length :=
  ⟨by decide,
   c3_length_preservation defaultConfig "you bullshit artist".data
     (by decide) (by decide)⟩

/-- The specification of the `analyze` collection loop: for each token (in
scan order), append the token's matched words (in push order). -/
def azSpec (cfg : FilterConfig) (text : List Char) (i : Nat) :
    List (List Char) :=
  if h : i < text.length then
    if isBoundaryAtPosition text i then azSpec cfg text (i + 1)
    else
      let j := tokenEndFrom text (i + 1)
      let w := sliceL text i j
      (if isPotentialWordFast w then getProfanityVariantsFast cfg w
       else []) ++ azSpec cfg text (j + 1)
  else []
termination_by text.length - i
decreasing_by
  · omega
  · have := tokenEndFrom_ge text (i + 1)
    omega

theorem azSpec_stop (cfg : FilterConfig) (text : List Char) (i : Nat)
    (h : text.length ≤ i) : azSpec cfg text i = [] := by
  rw [azSpec]
  rw [dif_neg (by omega)]

theorem azSpec_bnd (cfg : FilterConfig) (text : List Char) (i : Nat)
    (h1 : i < text.length) (h2 : isBoundaryAtPosition text i = true) :
    azSpec cfg text i = azSpec cfg text (i + 1) := by
  rw [azSpec]
  rw [dif_pos h1, if_pos h2]

theorem azSpec_tok (cfg : FilterConfig) (text : List Char) (i : Nat)
    (h1 : i < text.length) (h2 : isBoundaryAtPosition text i = false) :
    azSpec cfg text i =
      (if isPotentialWordFast (sliceL text i (tokenEndFrom text (i + 1)))
       then getProfanityVariantsFast cfg
         (sliceL text i (tokenEndFrom text (i + 1)))
       else []) ++ azSpec cfg text (tokenEndFrom text (i + 1) + 1) := by
  rw [azSpec]
  rw [dif_pos h1, if_neg (by simp [h2])]

theorem azGo_gt (cfg : FilterConfig) (text : List Char) :
    ∀ fuel i ws found, text.length < i →
      azGo cfg text fuel i ws found = found := by
  intro fuel i ws found hi
  cases fuel with
  | zero => rfl
  | succ fuel =>
    simp only [azGo]
    rw [if_neg (by omega)]

/-- The `analyze` loop computes `azSpec`. -/
theorem azGo_spec (cfg : FilterConfig) (text : List Char) :
    ∀ fuel : Nat,
      (∀ i found, text.length + 1 ≤ fuel + i →
        azGo cfg text fuel i none found = found ++ azSpec cfg text i) ∧
      (∀ i s found, text.length + 1 ≤ fuel + i → s < i →
          i ≤ text.length →
        azGo cfg text fuel i (some s) found =
          found ++
            ((if isPotentialWordFast (sliceL text s (tokenEndFrom text i))
              then getProfanityVariantsFast cfg
                (sliceL text s (tokenEndFrom text i))
              else []) ++
              azSpec cfg text (tokenEndFrom text i + 1))) := by
  intro fuel
  induction fuel with
  | zero =>
    constructor
    · intro i found hf
      rw [azSpec_stop cfg text i (by omega)]
      simp [azGo]
    · intro i s found hf hs hi
      omega
  | succ fuel ih =>
    constructor
    · intro i found hf
      by_cases hlen : i ≤ text.length
      · simp only [azGo]
        rw [if_pos hlen]
        by_cases hlt : i < text.length
        · rw [if_pos hlt]
          by_cases hb : isBoundaryAtPosition text i = true
          · rw [hb]
            simp only [Bool.not_true]
            rw [if_neg Bool.false_ne_true]
            rw [ih.1 (i + 1) found (by omega)]
            rw [azSpec_bnd cfg text i hlt hb]
          · have hb' : isBoundaryAtPosition text i = false := by
              simpa using hb
            rw [hb']
            simp only [Bool.not_false]
            rw [if_pos trivial]
            rw [ih.2 (i + 1) i found (by omega) (by omega) (by omega)]
            rw [azSpec_tok cfg text i hlt hb']
        · rw [if_neg hlt]
          simp only [Bool.not_true]
          rw [if_neg Bool.false_ne_true]
          rw [ih.1 (i + 1) found (by omega)]
          rw [azSpec_stop cfg text i (by omega),
            azSpec_stop cfg text (i + 1) (by omega)]
      · rw [azGo_gt cfg text (fuel + 1) i none found (by omega)]
        rw [azSpec_stop cfg text i (by omega)]
        simp
    · intro i s found hf hs hi
      simp only [azGo]
      rw [if_pos hi]
      by_cases hlt : i < text.length
      · rw [if_pos hlt]
        by_cases hb : isBoundaryAtPosition text i = true
        · rw [if_pos (show (isBoundaryAtPosition text i ||
              (i == text.length)) = true by simp [hb])]
          rw [ih.1 (i + 1)
            (found ++
              if isPotentialWordFast (sliceL text s i) then
                getProfanityVariantsFast cfg (sliceL text s i)
              else []) (by omega)]
          rw [tokenEndFrom_here text i (by simp [hb])]
          simp [List.append_assoc]
        · have hb' : isBoundaryAtPosition text i = false := by
            simpa using hb
          rw [if_neg (show ¬(isBoundaryAtPosition text i ||
              (i == text.length)) = true by
            simp only [hb', Bool.false_or, beq_iff_eq]
            omega)]
          rw [ih.2 (i + 1) s found (by omega) (by omega) (by omega)]
          rw [tokenEndFrom_step text i hlt hb']
      · rw [if_neg hlt]
        rw [if_pos (show ((true : Bool) || (i == text.length)) = true by
          simp)]
        rw [ih.1 (i + 1)
          (found ++
            if isPotentialWordFast (sliceL text s i) then
              getProfanityVariantsFast cfg (sliceL text s i)
            else []) (by omega)]
        rw [tokenEndFrom_here text i (fun hc => hlt hc.1)]
        rw [azSpec_stop cfg text (i + 1) (by omega)]
        simp [List.append_assoc]

/-- C9 counterexample: one single-token occurrence can contribute several
entries to `found` — for `"BullSh1t"` both the token and its
repeated-character-compressed form are checked, and the whole-token match
(`bullshit`, twice: once per checked form) and the substring match
(`shit`, via the compound-word branch) are all pushed. -/
theorem c9_counterexample_multi_entries :
    analyzeDefault "BullSh1t".data =
      ⟨"********".data, true,
       ["bullshit".data, "bullshit".data, "shit".data]⟩ := by
  decide

/-- C9 (amended): `found` is exactly the concatenation, over the tokens of
the text in scan order, of each potential token's matched normalized words
in push order (duplicates preserved, and possibly several entries per
occurrence); the spec's own example holds, and duplicate occurrences are
kept. -/
theorem c9_found_in_scan_order :
    (∀ (cfg : FilterConfig) (t : List Char),
      (analyze cfg t).found =
        if t.isEmpty || !hasBasicProfanityChars t then []
        else azSpec cfg t 0) ∧
      analyzeDefault "This shit is damn good".data =
        ⟨"This **** is **** good".data, true,
         ["shit".data, "damn".data]⟩ ∧
      (analyzeDefault "shit shit shit".data).found =
        ["shit".data, "shit".data, "shit".data] := by
  refine ⟨?_, by decide, by decide⟩
  intro cfg t
  by_cases h1 : t.isEmpty = true
  · rw [if_pos (by simp [h1])]
    unfold analyze
    rw [if_pos h1]
  · by_cases h2 : hasBasicProfanityChars t = true
    · rw [if_neg (by simp [h1, h2])]
      unfold analyze
      rw [if_neg h1, if_neg (by simp [h2])]
      simp only []
      rw [(azGo_spec cfg t (t.length + 1)).1 0 [] (by omega)]
      simp
    · have h2' : hasBasicProfanityChars t = false := by simpa using h2
      rw [if_pos (show (t.isEmpty || !hasBasicProfanityChars t) = true by
        simp [h2'])]
      unfold analyze
      rw [if_neg h1, if_pos (show (!hasBasicProfanityChars t) = true by
        simp [h2'])]

/-! ## Splitting the scan at a safe seam (for the repetitive fast path) -/

/-- Left locality of the boundary test: positions inside a prefix that ends
with a space are judged the same in `P ++ Q` as in `P` alone. -/
theorem isB_append_left (P Q : List Char)
    (hlast : P.getD (P.length - 1) ' ' = ' ') :
    ∀ k, k < P.length →
      isBoundaryAtPosition (P ++ Q) k = isBoundaryAtPosition P k := by
  intro k hk
  unfold isBoundaryAtPosition
  rw [List.getD_append P Q ' ' k hk]
  simp only []
  by_cases hc : BOUNDARY_CHARS.contains (P.getD k ' ').toNat = true
  · rw [hc]
    simp only [if_true]
    by_cases h40 : ((P.getD k ' ').toNat == 40) = true
    · rw [h40]
      simp only [if_true]
      have hkne : k ≠ P.length - 1 := by
        intro hke
        rw [hke, hlast] at h40
        simp at h40
      have hk1 : k + 1 < P.length := by omega
      rw [List.getD_append P Q (Char.ofNat 0) (k + 1) hk1]
      by_cases hk0 : k > 0
      · rw [if_pos hk0, if_pos hk0]
        rw [List.getD_append P Q (Char.ofNat 0) (k - 1) (by omega)]
        rw [if_pos (show k + 1 < (P ++ Q).length by
          rw [List.length_append]
          omega)]
        rw [if_pos hk1]
      · rw [if_neg hk0, if_neg hk0]
        rw [if_pos (show k + 1 < (P ++ Q).length by
          rw [List.length_append]
          omega)]
        rw [if_pos hk1]
    · rw [if_neg h40, if_neg h40]
  · rw [if_neg hc, if_neg hc]

/-- Right locality of the boundary test: positions inside the suffix of
`P ++ Q` are judged the same as in `Q` alone, when `P` ends with a space. -/
theorem isB_append_right (P Q : List Char) (hP : 0 < P.length)
    (hlast : P.getD (P.length - 1) ' ' = ' ') :
    ∀ m, isBoundaryAtPosition (P ++ Q) (P.length + m) =
      isBoundaryAtPosition Q m := by
  intro m
  unfold isBoundaryAtPosition
  rw [List.getD_append_right P Q ' ' (P.length + m) (by omega)]
  rw [show P.length + m - P.length = m by omega]
  simp only []
  by_cases hc : BOUNDARY_CHARS.contains (Q.getD m ' ').toNat = true
  · rw [hc]
    simp only [if_true]
    by_cases h40 : ((Q.getD m ' ').toNat == 40) = true
    · rw [h40]
      simp only [if_true]
      have hnext : (if P.length + m + 1 < (P ++ Q).length then
          ((P ++ Q).getD (P.length + m + 1) (Char.ofNat 0)).toNat else 0) =
          (if m + 1 < Q.length then
            (Q.getD (m + 1) (Char.ofNat 0)).toNat else 0) := by
        by_cases hm1 : m + 1 < Q.length
        · rw [if_pos hm1, if_pos (show P.length + m + 1 < (P ++ Q).length by
            rw [List.length_append]
            omega)]
          rw [List.getD_append_right P Q (Char.ofNat 0) (P.length + m + 1)
            (by omega)]
          rw [show P.length + m + 1 - P.length = m + 1 by omega]
        · rw [if_neg hm1, if_neg (show ¬P.length + m + 1 < (P ++ Q).length by
            rw [List.length_append]
            omega)]
      rw [hnext]
      have hprev : isLetterCode (if P.length + m > 0 then
          ((P ++ Q).getD (P.length + m - 1) (Char.ofNat 0)).toNat else 0) =
          isLetterCode
            (if m > 0 then (Q.getD (m - 1) (Char.ofNat 0)).toNat else 0) := by
        by_cases hm0 : m > 0
        · rw [if_pos hm0, if_pos (show P.length + m > 0 by omega)]
          rw [List.getD_append_right P Q (Char.ofNat 0) (P.length + m - 1)
            (by omega)]
          rw [show P.length + m - 1 - P.length = m - 1 by omega]
        · have hm0' : m = 0 := by omega
          rw [if_neg hm0, if_pos (show P.length + m > 0 by omega)]
          rw [hm0']
          rw [show P.length + 0 - 1 = P.length - 1 by omega]
          rw [List.getD_append P Q (Char.ofNat 0) (P.length - 1) (by omega)]
          have hplast : P.getD (P.length - 1) (Char.ofNat 0) = ' ' := by
            rw [List.getD_eq_getElem P (Char.ofNat 0) (by omega)]
            rw [List.getD_eq_getElem P ' ' (by omega)] at hlast
            exact hlast
          rw [hplast]
          decide
      rw [hprev]
    · rw [if_neg h40, if_neg h40]
  · rw [if_neg hc, if_neg hc]

/-- The last position of a space-terminated string is a boundary. -/
theorem isB_last_space (P : List Char)
    (hlast : P.getD (P.length - 1) ' ' = ' ') :
    isBoundaryAtPosition P (P.length - 1) = true := by
  unfold isBoundaryAtPosition
  simp only []
  rw [hlast]
  rw [if_pos (by decide), if_neg (by decide)]

/-- Token scans started inside a space-terminated prefix stay inside it. -/
theorem tokenEndFrom_append_left (P Q : List Char) (hP : 0 < P.length)
    (hlast : P.getD (P.length - 1) ' ' = ' ') :
    ∀ i, i < P.length →
      tokenEndFrom (P ++ Q) i = tokenEndFrom P i ∧
        tokenEndFrom P i < P.length := by
  intro i hi
  by_cases hb : isBoundaryAtPosition P i = false
  · have hilast : i ≠ P.length - 1 := by
      intro hke
      rw [hke, isB_last_space P hlast] at hb
      exact Bool.false_ne_true hb.symm
    have hi1 : i + 1 < P.length := by omega
    rw [tokenEndFrom_step P i hi hb]
    rw [tokenEndFrom_step (P ++ Q) i (by rw [List.length_append]; omega)
      (by rw [isB_append_left P Q hlast i hi]; exact hb)]
    exact tokenEndFrom_append_left P Q hP hlast (i + 1) hi1
  · constructor
    · rw [tokenEndFrom_here P i (fun hc => hb hc.2),
        tokenEndFrom_here (P ++ Q) i (by
          intro hc
          rw [isB_append_left P Q hlast i hi] at hc
          exact hb hc.2)]
    · rw [tokenEndFrom_here P i (fun hc => hb hc.2)]
      exact hi
termination_by i => P.length - i
decreasing_by omega

/-- Token scans in the suffix of a seam-split text shift by the prefix
length. -/
theorem tokenEndFrom_append_right (P Q : List Char) (hP : 0 < P.length)
    (hlast : P.getD (P.length - 1) ' ' = ' ') :
    ∀ m, tokenEndFrom (P ++ Q) (P.length + m) =
      P.length + tokenEndFrom Q m := by
  intro m
  by_cases hc : m < Q.length ∧ isBoundaryAtPosition Q m = false
  · rw [tokenEndFrom_step Q m hc.1 hc.2]
    rw [tokenEndFrom_step (P ++ Q) (P.length + m)
      (by rw [List.length_append]; omega)
      (by rw [isB_append_right P Q hP hlast m]; exact hc.2)]
    rw [show P.length + m + 1 = P.length + (m + 1) from rfl]
    exact tokenEndFrom_append_right P Q hP hlast (m + 1)
  · rw [tokenEndFrom_here Q m hc]
    rw [tokenEndFrom_here (P ++ Q) (P.length + m) (by
      intro hcc
      apply hc
      rw [List.length_append] at hcc
      rw [isB_append_right P Q hP hlast m] at hcc
      exact ⟨by omega, hcc.2⟩)]
termination_by m => Q.length - m
decreasing_by
  rcases hc with ⟨h1, _⟩
  omega

theorem sliceL_append_left (P Q : List Char) (a b : Nat)
    (hb : b ≤ P.length) : sliceL (P ++ Q) a b = sliceL P a b := by
  unfold sliceL
  rw [List.take_append_of_le_length hb]

theorem sliceL_append_right (P Q : List Char) (a b : Nat) :
    sliceL (P ++ Q) (P.length + a) (P.length + b) = sliceL Q a b := by
  unfold sliceL
  rw [List.take_append b, List.drop_append a]

/-- The scan of the suffix of a seam-split text is the scan of the suffix
alone. -/
theorem sfSpec_shift (cfg : FilterConfig) (P Q : List Char)
    (hP : 0 < P.length) (hlast : P.getD (P.length - 1) ' ' = ' ') :
    ∀ m, sfSpec cfg (P ++ Q) (P.length + m) = sfSpec cfg Q m := by
  intro m
  by_cases hm : m < Q.length
  · by_cases hb : isBoundaryAtPosition Q m = true
    · rw [sfSpec_bnd cfg Q m hm hb]
      rw [sfSpec_bnd cfg (P ++ Q) (P.length + m)
        (by rw [List.length_append]; omega)
        (by rw [isB_append_right P Q hP hlast m]; exact hb)]
      rw [show P.length + m + 1 = P.length + (m + 1) from rfl]
      rw [sfSpec_shift cfg P Q hP hlast (m + 1)]
      rw [List.getD_append_right P Q ' ' (P.length + m) (by omega)]
      rw [show P.length + m - P.length = m by omega]
    · have hb' : isBoundaryAtPosition Q m = false := by simpa using hb
      rw [sfSpec_tok cfg Q m hm hb']
      rw [sfSpec_tok cfg (P ++ Q) (P.length + m)
        (by rw [List.length_append]; omega)
        (by rw [isB_append_right P Q hP hlast m]; exact hb')]
      rw [show P.length + m + 1 = P.length + (m + 1) from rfl]
      rw [tokenEndFrom_append_right P Q hP hlast (m + 1)]
      rw [sliceL_append_right P Q m (tokenEndFrom Q (m + 1))]
      rw [show P.length + tokenEndFrom Q (m + 1) + 1 =
        P.length + (tokenEndFrom Q (m + 1) + 1) from rfl]
      rw [sfSpec_shift cfg P Q hP hlast (tokenEndFrom Q (m + 1) + 1)]
      by_cases hjl : tokenEndFrom Q (m + 1) < Q.length
      · rw [if_pos hjl, if_pos (show
          P.length + tokenEndFrom Q (m + 1) < (P ++ Q).length by
            rw [List.length_append]
            omega)]
        rw [List.getD_append_right P Q ' '
          (P.length + tokenEndFrom Q (m + 1)) (by omega)]
        rw [show P.length + tokenEndFrom Q (m + 1) - P.length =
          tokenEndFrom Q (m + 1) by omega]
      · rw [if_neg hjl, if_neg (show
          ¬P.length + tokenEndFrom Q (m + 1) < (P ++ Q).length by
            rw [List.length_append]
            omega)]
  · rw [sfSpec_stop cfg Q m (by omega),
      sfSpec_stop cfg (P ++ Q) (P.length + m)
        (by rw [List.length_append]; omega)]
termination_by m => Q.length - m
decreasing_by
  · omega
  · have := tokenEndFrom_ge Q (m + 1)
    omega

/-- Splitting the scan at a seam: scanning `P ++ Q` from a position inside
the space-terminated prefix `P` is scanning the rest of `P` and then `Q`. -/
theorem sfSpec_split (cfg : FilterConfig) (P Q : List Char)
    (hP : 0 < P.length) (hlast : P.getD (P.length - 1) ' ' = ' ') :
    ∀ i, i ≤ P.length →
      sfSpec cfg (P ++ Q) i =
        ((sfSpec cfg P i).1 ++ (sfSpec cfg Q 0).1,
         (sfSpec cfg P i).2 || (sfSpec cfg Q 0).2) := by
  intro i hi
  rcases Nat.eq_or_lt_of_le hi with he | hlt
  · rw [he]
    have hsh := sfSpec_shift cfg P Q hP hlast 0
    rw [Nat.add_zero] at hsh
    rw [hsh, sfSpec_stop cfg P P.length (Nat.le_refl _)]
    simp
  · by_cases hb : isBoundaryAtPosition P i = true
    · rw [sfSpec_bnd cfg P i hlt hb]
      rw [sfSpec_bnd cfg (P ++ Q) i (by rw [List.length_append]; omega)
        (by rw [isB_append_left P Q hlast i hlt]; exact hb)]
      rw [sfSpec_split cfg P Q hP hlast (i + 1) (by omega)]
      rw [List.getD_append P Q ' ' i hlt]
      simp
    · have hb' : isBoundaryAtPosition P i = false := by simpa using hb
      have hi1 : i + 1 < P.length := by
        rcases Nat.lt_or_ge (i + 1) P.length with h | h
        · exact h
        · exfalso
          have hie : i = P.length - 1 := by omega
          rw [hie, isB_last_space P hlast] at hb'
          exact Bool.false_ne_true hb'.symm
      obtain ⟨hte, htlt⟩ := tokenEndFrom_append_left P Q hP hlast (i + 1) hi1
      rw [sfSpec_tok cfg P i hlt hb']
      rw [sfSpec_tok cfg (P ++ Q) i (by rw [List.length_append]; omega)
        (by rw [isB_append_left P Q hlast i hlt]; exact hb')]
      rw [hte]
      rw [sliceL_append_left P Q i (tokenEndFrom P (i + 1))
        (Nat.le_of_lt htlt)]
      rw [if_pos htlt, if_pos (show
        tokenEndFrom P (i + 1) < (P ++ Q).length by
          rw [List.length_append]
          omega)]
      rw [List.getD_append P Q ' ' (tokenEndFrom P (i + 1)) htlt]
      rw [sfSpec_split cfg P Q hP hlast (tokenEndFrom P (i + 1) + 1)
        (by omega)]
      simp [Bool.or_assoc]
termination_by i => P.length - i
decreasing_by
  · omega
  · have := tokenEndFrom_ge P (i + 1)
    omega

theorem repeatL_succ (s : List Char) (n : Nat) :
    repeatL s (n + 1) = s ++ repeatL s n := by
  unfold repeatL
  rw [List.replicate_succ, List.flatten_cons]

/-- Scanning `n` space-terminated copies of `P` followed by `R` scans each
copy and the remainder independently. -/
theorem sfSpec_repeat (cfg : FilterConfig) (P R : List Char)
    (hP : 0 < P.length) (hlast : P.getD (P.length - 1) ' ' = ' ') :
    ∀ n, (sfSpec cfg (repeatL P n ++ R) 0).1 =
      repeatL (sfSpec cfg P 0).1 n ++ (sfSpec cfg R 0).1 := by
  intro n
  induction n with
  | zero =>
    unfold repeatL
    simp
  | succ n ih =>
    rw [repeatL_succ, List.append_assoc]
    rw [show (sfSpec cfg (P ++ (repeatL P n ++ R)) 0).1 =
      ((sfSpec cfg (P ++ (repeatL P n ++ R)) 0).1) from rfl]
    rw [sfSpec_split cfg P (repeatL P n ++ R) hP hlast 0 (by omega)]
    rw [repeatL_succ]
    simp only []
    rw [ih]
    simp [List.append_assoc]

/-- C7 (amended): when the text really is `n` copies of a space-terminated
pattern `P` of the reported length followed by a short remainder, the
repetitive-text fast path agrees with the plain streaming filter. -/
theorem c7_fast_path_equiv (cfg : FilterConfig) (P R : List Char)
    (n L : Nat) (hL : P.length = L) (hL0 : 0 < L)
    (hlast : P.getD (P.length - 1) ' ' = ' ') (hR : R.length < L) :
    filterRepetitiveText cfg (repeatL P n ++ R) L P =
      streamingFilterOptimized cfg (repeatL P n ++ R) := by
  have hP0 : 0 < P.length := by omega
  have hrlen : (repeatL P n).length = n * L := by
    rw [repeatL_length, hL]
  have hlen : (repeatL P n ++ R).length = n * L + R.length := by
    rw [List.length_append, hrlen]
  have hreps : (repeatL P n ++ R).length / L = n := by
    rw [hlen, Nat.add_comm, Nat.add_mul_div_right R.length n hL0,
      Nat.div_eq_of_lt hR]
    omega
  have hdrop : (repeatL P n ++ R).drop
      ((repeatL P n ++ R).length / L * L) = R := by
    rw [hreps, show n * L = (repeatL P n).length from hrlen.symm]
    exact List.drop_left (repeatL P n) R
  have htake : (repeatL P n ++ R).take
      ((repeatL P n ++ R).length / L * L) = repeatL P n := by
    rw [hreps, show n * L = (repeatL P n).length from hrlen.symm]
    exact List.take_left (repeatL P n) R
  have hmain := sfSpec_repeat cfg P R hP0 hlast n
  have hstP := streaming_eq_spec cfg P
  have hstR := streaming_eq_spec cfg R
  rw [streaming_eq_spec cfg (repeatL P n ++ R), hmain]
  unfold filterRepetitiveText
  simp only []
  split_ifs with h1 h2 h3 h4
  · rw [hdrop, hreps, hstP, hstR]
  · rw [hdrop] at h2
    have hR0 : R = [] := by
      cases R with
      | nil => rfl
      | cons a l => simp at h2
    subst hR0
    rw [hreps, hstP]
    rw [sfSpec_stop cfg [] 0 (by simp)]
  · rw [hdrop] at h3
    have hR0 : R = [] := by
      cases R with
      | nil => rfl
      | cons a l => simp at h3
    push_neg at h1
    rw [hstP] at h1
    subst hR0
    rw [sfSpec_stop cfg [] 0 (by simp)]
    rw [h1]
  · rw [hdrop] at h4
    push_neg at h1
    rw [hstP] at h1
    rw [hstR] at h4
    have h4' : (sfSpec cfg R 0).1 = R := by simpa using h4
    rw [h1, h4']
  · rw [htake, hdrop, hstR]
    push_neg at h1
    rw [hstP] at h1
    rw [h1]

/-- The pattern of the C7 counterexample (35 characters; its trailing
token `"a"` continues into the next copy). -/
def c7P : List Char := "go on go on go on go on go on go a ".data

/-- The remainder of the C7 counterexample (35 characters; its leading
characters extend the seam token of the preceding copy). -/
def c7Q : List Char := " shit aa aa aa aa aa aa aa aa aa aa".data

/-- The C7 counterexample input: three copies of the pattern and one
remainder block (140 characters). -/
def c7t : List Char := c7P ++ (c7P ++ (c7P ++ c7Q))

/-- C7 counterexample: the detector reports pattern `c7P` of length 35 for
`c7t`, and `filter` takes the repetitive fast path on it, but the fast
path's output differs from the plain streaming filter's (the unverified
third copy and the seam-crossing tokens are handled differently). -/
theorem c7_counterexample_lost_match :
    detectRepetitivePattern c7t = ⟨true, 35, c7P⟩ ∧
      filterRepetitiveText defaultConfig c7t 35 c7P ≠
        streamingFilterOptimized defaultConfig c7t ∧
      filter defaultConfig c7t =
        filterRepetitiveText defaultConfig c7t 35 c7P :=
  ⟨by decide, by decide, by decide⟩

/-- The 35-character space-terminated pattern of the C7 witness. -/
def c7W : List Char := "This is shit AAAAAAAAAAAAAAAAAAAAA ".data

/-- C7 witness: the amended equivalence applied to four exact copies of a
space-terminated pattern. -/
theorem c7_fast_path_equiv_witness :
    filterRepetitiveText defaultConfig (repeatL c7W 4 ++ []) 35 c7W =
      streamingFilterOptimized defaultConfig (repeatL c7W 4 ++ []) :=
  c7_fast_path_equiv defaultConfig c7W [] 4 35 (by decide) (by decide)
    (by decide) (by decide)

/-! ## Idempotence of the streaming filter (for C5) -/

theorem repeatL_singleton (c : Char) :
    ∀ n, repeatL [c] n = List.replicate n c := by
  intro n
  induction n with
  | zero => rfl
  | succ n ih =>
    rw [repeatL_succ, ih, List.replicate_succ]
    rfl

/-- With `preserveLength` and replacement `"*"`, a replaced token becomes a
run of asterisks of its own length. -/
theorem createReplacement_star (cfg : FilterConfig)
    (hp : cfg.preserveLength = true) (hr : cfg.replacement = ['*'])
    (w : List Char) :
    createReplacement cfg w = List.replicate w.length '*' := by
  unfold createReplacement
  rw [hp, hr]
  simp only [Bool.not_true]
  rw [if_neg Bool.false_ne_true]
  rw [if_pos (by simp)]
  exact repeatL_singleton '*' w.length

theorem tokenF_star_cases (cfg : FilterConfig)
    (hp : cfg.preserveLength = true) (hr : cfg.replacement = ['*'])
    (w : List Char) :
    tokenF cfg w = w ∨ tokenF cfg w = List.replicate w.length '*' := by
  unfold tokenF
  split_ifs with h1 h2
  · right
    exact createReplacement_star cfg hp hr w
  · left
    rfl
  · left
    rfl

theorem tokenF_star (cfg : FilterConfig)
    (hp : cfg.preserveLength = true) (hr : cfg.replacement = ['*'])
    (n : Nat) :
    tokenF cfg (List.replicate n '*') = List.replicate n '*' := by
  unfold tokenF
  split_ifs with h1 h2
  · rw [createReplacement_star cfg hp hr, List.length_replicate]
  · rfl
  · rfl

theorem tokenF_star_idem (cfg : FilterConfig)
    (hp : cfg.preserveLength = true) (hr : cfg.replacement = ['*'])
    (w : List Char) :
    tokenF cfg (tokenF cfg w) = tokenF cfg w := by
  rcases tokenF_star_cases cfg hp hr w with h | h
  · rw [h, h]
  · rw [h, tokenF_star cfg hp hr]

theorem getD_irrel (l : List Char) (x : Nat) (d d' : Char)
    (h : x < l.length) : l.getD x d = l.getD x d' := by
  rw [List.getD_eq_getElem l d h, List.getD_eq_getElem l d' h]

theorem sliceL_getD (l : List Char) (a b k : Nat) (d : Char)
    (hk : k < b - a) (hb : b ≤ l.length) :
    (sliceL l a b).getD k d = l.getD (a + k) d := by
  unfold sliceL
  have h1 : k < ((l.take b).drop a).length := by
    rw [List.length_drop, List.length_take]
    omega
  rw [List.getD_eq_getElem _ d h1]
  rw [List.getD_eq_getElem l d (by omega)]
  rw [List.getElem_drop, List.getElem_take]

/-- ASCII-letter codes are never boundary-character codes. -/
theorem letter_not_boundary (n : Nat) (h : isLetterCode n = true) :
    BOUNDARY_CHARS.contains n = false := by
  have hall : ∀ k ∈ List.range 128, isLetterCode k = true →
      BOUNDARY_CHARS.contains k = false := by decide
  have hlt : n < 128 := by
    simp only [isLetterCode, decide_eq_true_eq] at h
    omega
  exact hall n (List.mem_range.mpr hlt) h

/-- Pointwise description of the streaming output (for a single-asterisk,
length-preserving replacement): every character is either the original
character or `'*'`; boundary positions are kept verbatim; and adjacent
in-token positions are either both kept or both replaced. -/
theorem sfSpec_pointwise (cfg : FilterConfig)
    (hp : cfg.preserveLength = true) (hr : cfg.replacement = ['*'])
    (t : List Char) :
    ∀ i k, k < t.length - i →
      (((sfSpec cfg t i).1.getD k ' ' = t.getD (i + k) ' ') ∨
        (sfSpec cfg t i).1.getD k ' ' = '*') ∧
      (isBoundaryAtPosition t (i + k) = true →
        (sfSpec cfg t i).1.getD k ' ' = t.getD (i + k) ' ') ∧
      (i + k + 1 < t.length →
        isBoundaryAtPosition t (i + k) = false →
        isBoundaryAtPosition t (i + k + 1) = false →
        ((sfSpec cfg t i).1.getD k ' ' = t.getD (i + k) ' ' ∧
          (sfSpec cfg t i).1.getD (k + 1) ' ' = t.getD (i + k + 1) ' ') ∨
        ((sfSpec cfg t i).1.getD k ' ' = '*' ∧
          (sfSpec cfg t i).1.getD (k + 1) ' ' = '*')) := by
  intro i k hk
  have hrlen : ∀ w : List Char, (tokenF cfg w).length = w.length :=
    tokenF_length cfg hp (by rw [hr]; rfl)
  have hlt : i < t.length := by omega
  by_cases hb : isBoundaryAtPosition t i = true
  · rw [sfSpec_bnd cfg t i hlt hb]
    simp only []
    cases k with
    | zero =>
      rw [List.getD_cons_zero, Nat.add_zero]
      refine ⟨Or.inl rfl, fun _ => rfl, ?_⟩
      intro _ hbf _
      rw [hb] at hbf
      exact absurd hbf.symm Bool.false_ne_true
    | succ k' =>
      have hidx : i + (k' + 1) = (i + 1) + k' := by omega
      have ih := sfSpec_pointwise cfg hp hr t (i + 1) k' (by omega)
      rw [List.getD_cons_succ, List.getD_cons_succ, hidx]
      exact ih
  · have hb' : isBoundaryAtPosition t i = false := by simpa using hb
    have hj1 : i + 1 ≤ tokenEndFrom t (i + 1) := tokenEndFrom_ge t (i + 1)
    have hj2 : tokenEndFrom t (i + 1) ≤ t.length :=
      tokenEndFrom_le t (i + 1) (by omega)
    have hjb : tokenEndFrom t (i + 1) < t.length →
        isBoundaryAtPosition t (tokenEndFrom t (i + 1)) = true :=
      tokenEndFrom_isB t (i + 1)
    have hbet : ∀ m, i + 1 ≤ m → m < tokenEndFrom t (i + 1) →
        isBoundaryAtPosition t m = false :=
      fun m h1 h2 => (tokenEndFrom_between t (i + 1) m h1 h2).2
    have hwlen : (sliceL t i (tokenEndFrom t (i + 1))).length =
        tokenEndFrom t (i + 1) - i := by
      unfold sliceL
      rw [List.length_drop, List.length_take]
      omega
    have htflen : (tokenF cfg (sliceL t i (tokenEndFrom t (i + 1)))).length =
        tokenEndFrom t (i + 1) - i := by
      rw [hrlen]
      exact hwlen
    rw [sfSpec_tok cfg t i hlt hb']
    simp only []
    have hbk : ∀ m, m < tokenEndFrom t (i + 1) - i →
        isBoundaryAtPosition t (i + m) = false := by
      intro m hm
      rcases Nat.eq_zero_or_pos m with h0 | hposm
      · rw [h0, Nat.add_zero]
        exact hb'
      · exact hbet (i + m) (by omega) (by omega)
    rcases Nat.lt_or_ge k (tokenEndFrom t (i + 1) - i) with hk1 | hk1
    · -- the position is inside the token
      have hgd : ∀ d, (tokenF cfg (sliceL t i (tokenEndFrom t (i + 1))) ++
          ((if tokenEndFrom t (i + 1) < t.length then
              [t.getD (tokenEndFrom t (i + 1)) ' '] else []) ++
            (sfSpec cfg t (tokenEndFrom t (i + 1) + 1)).1)).getD k d =
          (tokenF cfg (sliceL t i (tokenEndFrom t (i + 1)))).getD k d := by
        intro d
        exact List.getD_append _ _ d k (by rw [htflen]; omega)
      have hseam : ¬(i + k + 1 < t.length ∧
          k + 1 = tokenEndFrom t (i + 1) - i ∧
          isBoundaryAtPosition t (i + k + 1) = false) := by
        rintro ⟨hl2, hkj, hbf2⟩
        have hkj' : i + k + 1 = tokenEndFrom t (i + 1) := by omega
        have hjtrue := hjb (by omega)
        rw [← hkj', hbf2] at hjtrue
        exact Bool.false_ne_true hjtrue
      rcases tokenF_star_cases cfg hp hr
          (sliceL t i (tokenEndFrom t (i + 1))) with hcase | hcase
      · have hval : ∀ m, m < tokenEndFrom t (i + 1) - i →
            (tokenF cfg (sliceL t i (tokenEndFrom t (i + 1)))).getD m ' ' =
              t.getD (i + m) ' ' := by
          intro m hm
          rw [hcase]
          exact sliceL_getD t i (tokenEndFrom t (i + 1)) m ' ' hm hj2
        refine ⟨Or.inl (by rw [hgd]; exact hval k hk1), ?_, ?_⟩
        · intro hbtrue
          rw [hbk k hk1] at hbtrue
          exact absurd hbtrue Bool.false_ne_true
        · intro hl2 hbf1 hbf2
          rcases Nat.lt_or_ge (k + 1) (tokenEndFrom t (i + 1) - i) with
            hk2 | hk2
          · left
            refine ⟨by rw [hgd]; exact hval k hk1, ?_⟩
            have hgd2 := List.getD_append
              (tokenF cfg (sliceL t i (tokenEndFrom t (i + 1))))
              ((if tokenEndFrom t (i + 1) < t.length then
                  [t.getD (tokenEndFrom t (i + 1)) ' '] else []) ++
                (sfSpec cfg t (tokenEndFrom t (i + 1) + 1)).1)
              ' ' (k + 1) (by rw [htflen]; omega)
            rw [hgd2]
            exact hval (k + 1) hk2
          · exact absurd ⟨hl2, by omega, hbf2⟩ hseam
      · have hval : ∀ m, m < tokenEndFrom t (i + 1) - i →
            (tokenF cfg (sliceL t i (tokenEndFrom t (i + 1)))).getD m ' ' =
              '*' := by
          intro m hm
          rw [hcase]
          rw [List.getD_eq_getElem _ ' '
            (by rw [List.length_replicate, hwlen]; omega)]
          exact List.getElem_replicate _ _
        refine ⟨Or.inr (by rw [hgd]; exact hval k hk1), ?_, ?_⟩
        · intro hbtrue
          rw [hbk k hk1] at hbtrue
          exact absurd hbtrue Bool.false_ne_true
        · intro hl2 hbf1 hbf2
          rcases Nat.lt_or_ge (k + 1) (tokenEndFrom t (i + 1) - i) with
            hk2 | hk2
          · right
            refine ⟨by rw [hgd]; exact hval k hk1, ?_⟩
            have hgd2 := List.getD_append
              (tokenF cfg (sliceL t i (tokenEndFrom t (i + 1))))
              ((if tokenEndFrom t (i + 1) < t.length then
                  [t.getD (tokenEndFrom t (i + 1)) ' '] else []) ++
                (sfSpec cfg t (tokenEndFrom t (i + 1) + 1)).1)
              ' ' (k + 1) (by rw [htflen]; omega)
            rw [hgd2]
            exact hval (k + 1) hk2
          · exact absurd ⟨hl2, by omega, hbf2⟩ hseam
    · -- the position is at or past the end-of-token boundary character
      have hjlt : tokenEndFrom t (i + 1) < t.length := by omega
      rw [if_pos hjlt]
      by_cases hkj : k = tokenEndFrom t (i + 1) - i
      · have hik : i + k = tokenEndFrom t (i + 1) := by omega
        have hgd : ∀ d, (tokenF cfg (sliceL t i (tokenEndFrom t (i + 1))) ++
            (t.getD (tokenEndFrom t (i + 1)) ' ' ::
              (sfSpec cfg t (tokenEndFrom t (i + 1) + 1)).1)).getD k d =
            t.getD (tokenEndFrom t (i + 1)) ' ' := by
          intro d
          rw [List.getD_append_right _ _ d k (by rw [htflen]; omega)]
          rw [htflen, show k - (tokenEndFrom t (i + 1) - i) = 0 by omega]
          rw [List.getD_cons_zero]
        have hgoal1 : (tokenF cfg (sliceL t i (tokenEndFrom t (i + 1))) ++
            ([t.getD (tokenEndFrom t (i + 1)) ' '] ++
              (sfSpec cfg t (tokenEndFrom t (i + 1) + 1)).1)).getD k ' ' =
            t.getD (i + k) ' ' := by
          rw [List.singleton_append, hgd ' ', hik]
        refine ⟨Or.inl hgoal1, fun _ => hgoal1, ?_⟩
        intro hl2 hbf1 hbf2
        rw [hik, hjb hjlt] at hbf1
        exact absurd hbf1.symm Bool.false_ne_true
      · -- strictly past the boundary character: inside the rest
        have hm : k - (tokenEndFrom t (i + 1) - i) - 1 <
            t.length - (tokenEndFrom t (i + 1) + 1) := by omega
        have ih := sfSpec_pointwise cfg hp hr t (tokenEndFrom t (i + 1) + 1)
          (k - (tokenEndFrom t (i + 1) - i) - 1) hm
        have hidx : (tokenEndFrom t (i + 1) + 1) +
            (k - (tokenEndFrom t (i + 1) - i) - 1) = i + k := by omega
        rw [hidx] at ih
        have hgd : ∀ m d, tokenEndFrom t (i + 1) - i < m →
            (tokenF cfg (sliceL t i (tokenEndFrom t (i + 1))) ++
              ([t.getD (tokenEndFrom t (i + 1)) ' '] ++
                (sfSpec cfg t (tokenEndFrom t (i + 1) + 1)).1)).getD m d =
            (sfSpec cfg t (tokenEndFrom t (i + 1) + 1)).1.getD
              (m - (tokenEndFrom t (i + 1) - i) - 1) d := by
          intro m d hmgt
          rw [List.getD_append_right _ _ d m (by rw [htflen]; omega)]
          rw [htflen, List.singleton_append]
          obtain ⟨n, hn⟩ : ∃ n, m - (tokenEndFrom t (i + 1) - i) = n + 1 :=
            ⟨m - (tokenEndFrom t (i + 1) - i) - 1, by omega⟩
          rw [hn, List.getD_cons_succ]
          simp
        have hgk : k - (tokenEndFrom t (i + 1) - i) - 1 + 1 =
            (k + 1) - (tokenEndFrom t (i + 1) - i) - 1 := by omega
        refine ⟨?_, ?_, ?_⟩
        · rw [hgd k ' ' (by omega)]
          exact ih.1
        · intro hbtrue
          rw [hgd k ' ' (by omega)]
          exact ih.2.1 hbtrue
        · intro hl2 hbf1 hbf2
          rw [hgd k ' ' (by omega), hgd (k + 1) ' ' (by omega), ← hgk]
          exact ih.2.2 hl2 hbf1 hbf2
termination_by i k => t.length - i
decreasing_by
  · omega
  · omega

theorem isB_oor (l : List Char) (k : Nat) (h : l.length ≤ k) :
    isBoundaryAtPosition l k = true := by
  unfold isBoundaryAtPosition
  simp only []
  rw [List.getD_eq_default l ' ' h]
  rw [if_pos (show BOUNDARY_CHARS.contains (Char.toNat ' ') = true by decide)]
  rw [if_neg (show ¬((Char.toNat ' ' == 40) = true) by decide)]

theorem isB_of_not_contained (l : List Char) (k : Nat)
    (h : BOUNDARY_CHARS.contains ((l.getD k ' ').toNat) = false) :
    isBoundaryAtPosition l k = false := by
  unfold isBoundaryAtPosition
  simp only []
  rw [h]
  rw [if_neg Bool.false_ne_true]

theorem isB_simple (l : List Char) (k : Nat)
    (hcont : BOUNDARY_CHARS.contains ((l.getD k ' ').toNat) = true)
    (h40 : (((l.getD k ' ').toNat : Nat) == 40) = false) :
    isBoundaryAtPosition l k = true := by
  unfold isBoundaryAtPosition
  simp only []
  rw [hcont]
  rw [if_pos rfl, h40]
  rw [if_neg Bool.false_ne_true]

theorem isB_paren (l : List Char) (k : Nat)
    (hcont : BOUNDARY_CHARS.contains ((l.getD k ' ').toNat) = true)
    (h40 : (((l.getD k ' ').toNat : Nat) == 40) = true) :
    isBoundaryAtPosition l k =
      !(isLetterCode
          (if k > 0 then (l.getD (k - 1) (Char.ofNat 0)).toNat else 0) &&
        isLetterCode
          (if k + 1 < l.length then (l.getD (k + 1) (Char.ofNat 0)).toNat
           else 0)) := by
  unfold isBoundaryAtPosition
  simp only []
  rw [hcont]
  rw [if_pos rfl, h40]
  rw [if_pos rfl]
  cases hAB : (isLetterCode
      (if k > 0 then (l.getD (k - 1) (Char.ofNat 0)).toNat else 0) &&
    isLetterCode
      (if k + 1 < l.length then (l.getD (k + 1) (Char.ofNat 0)).toNat
       else 0)) with
  | false =>
    rw [if_neg Bool.false_ne_true]
    rfl
  | true =>
    rw [if_pos rfl]
    rfl

/-- The streaming output has exactly the boundary structure of its input
(for a single-asterisk, length-preserving replacement): replaced tokens
become asterisk runs, which contain no boundary characters; boundary
characters stay in place; and an in-token `(` keeps its letter
neighbours, so the parenthesis rule judges it the same way. -/
theorem isB_preserved (cfg : FilterConfig)
    (hp : cfg.preserveLength = true) (hr : cfg.replacement = ['*'])
    (t : List Char) (k : Nat) :
    isBoundaryAtPosition ((sfSpec cfg t 0).1) k =
      isBoundaryAtPosition t k := by
  have hlen : (sfSpec cfg t 0).1.length = t.length := by
    rw [sfSpec_length cfg (tokenF_length cfg hp (by rw [hr]; rfl)) t 0]
    omega
  have pa : ∀ m, m < t.length →
      ((sfSpec cfg t 0).1.getD m ' ' = t.getD m ' ' ∨
        (sfSpec cfg t 0).1.getD m ' ' = '*') := by
    intro m hm
    have h := (sfSpec_pointwise cfg hp hr t 0 m (by omega)).1
    rwa [Nat.zero_add] at h
  have pb : ∀ m, m < t.length → isBoundaryAtPosition t m = true →
      (sfSpec cfg t 0).1.getD m ' ' = t.getD m ' ' := by
    intro m hm hbm
    have h := (sfSpec_pointwise cfg hp hr t 0 m (by omega)).2.1
    rw [Nat.zero_add] at h
    exact h hbm
  have pc : ∀ m, m + 1 < t.length →
      isBoundaryAtPosition t m = false →
      isBoundaryAtPosition t (m + 1) = false →
      (((sfSpec cfg t 0).1.getD m ' ' = t.getD m ' ' ∧
        (sfSpec cfg t 0).1.getD (m + 1) ' ' = t.getD (m + 1) ' ') ∨
       ((sfSpec cfg t 0).1.getD m ' ' = '*' ∧
        (sfSpec cfg t 0).1.getD (m + 1) ' ' = '*')) := by
    intro m hm hb1 hb2
    have h := (sfSpec_pointwise cfg hp hr t 0 m (by omega)).2.2
    rw [Nat.zero_add] at h
    exact h hm hb1 hb2
  by_cases hklen : k < t.length
  · by_cases hbt : isBoundaryAtPosition t k = true
    · have hck := pb k hklen hbt
      by_cases hcont : BOUNDARY_CHARS.contains ((t.getD k ' ').toNat) = true
      · by_cases h40 : (((t.getD k ' ').toNat : Nat) == 40) = true
        · rw [isB_paren t k hcont h40] at hbt
          rw [isB_paren (sfSpec cfg t 0).1 k (by rw [hck]; exact hcont)
            (by rw [hck]; exact h40),
            isB_paren t k hcont h40, hbt]
          rw [Bool.not_eq_true'] at hbt
          rw [Bool.not_eq_true']
          rcases Bool.eq_false_or_eq_true (isLetterCode
              (if k > 0 then
                ((sfSpec cfg t 0).1.getD (k - 1) (Char.ofNat 0)).toNat
               else 0) &&
            isLetterCode
              (if k + 1 < (sfSpec cfg t 0).1.length then
                ((sfSpec cfg t 0).1.getD (k + 1) (Char.ofNat 0)).toNat
               else 0)) with hAB | hAB
          · exfalso
            rw [Bool.and_eq_true] at hAB
            rcases hAB with ⟨hA, hB⟩
            have hk0 : k > 0 := by
              by_contra hc
              rw [if_neg hc] at hA
              exact absurd hA (by decide)
            have hk1 : k + 1 < t.length := by
              by_contra hc
              rw [hlen, if_neg hc] at hB
              exact absurd hB (by decide)
            rw [if_pos hk0,
              getD_irrel _ (k - 1) (Char.ofNat 0) ' ' (by omega)] at hA
            rw [hlen, if_pos hk1,
              getD_irrel _ (k + 1) (Char.ofNat 0) ' ' (by omega)] at hB
            have hA2 : isLetterCode ((t.getD (k - 1) ' ').toNat) = true := by
              rcases pa (k - 1) (by omega) with he | he
              · rwa [he] at hA
              · rw [he] at hA
                exact absurd hA (by decide)
            have hB2 : isLetterCode ((t.getD (k + 1) ' ').toNat) = true := by
              rcases pa (k + 1) (by omega) with he | he
              · rwa [he] at hB
              · rw [he] at hB
                exact absurd hB (by decide)
            rw [if_pos hk0, if_pos hk1,
              getD_irrel t (k - 1) (Char.ofNat 0) ' ' (by omega),
              getD_irrel t (k + 1) (Char.ofNat 0) ' ' (by omega),
              hA2, hB2] at hbt
            exact absurd hbt (by decide)
          · exact hAB
        · have h40' : (((t.getD k ' ').toNat : Nat) == 40) = false := by
            simpa using h40
          rw [isB_simple (sfSpec cfg t 0).1 k (by rw [hck]; exact hcont)
            (by rw [hck]; exact h40'), hbt]
      · exfalso
        have hcont' : BOUNDARY_CHARS.contains ((t.getD k ' ').toNat) =
            false := by simpa using hcont
        rw [isB_of_not_contained t k hcont'] at hbt
        exact Bool.false_ne_true hbt
    · have hbf : isBoundaryAtPosition t k = false := by simpa using hbt
      rw [hbf]
      rcases pa k hklen with hck | hck
      · by_cases hcont : BOUNDARY_CHARS.contains ((t.getD k ' ').toNat) =
            true
        · by_cases h40 : (((t.getD k ' ').toNat : Nat) == 40) = true
          · have hbfP : (!(isLetterCode
                (if k > 0 then (t.getD (k - 1) (Char.ofNat 0)).toNat
                 else 0) &&
              isLetterCode
                (if k + 1 < t.length then
                  (t.getD (k + 1) (Char.ofNat 0)).toNat else 0))) =
                false := by
              rw [← isB_paren t k hcont h40]
              exact hbf
            rw [Bool.not_eq_false'] at hbfP
            rw [Bool.and_eq_true] at hbfP
            rcases hbfP with ⟨hA, hB⟩
            have hk0 : k > 0 := by
              by_contra hc
              rw [if_neg hc] at hA
              exact absurd hA (by decide)
            have hk1 : k + 1 < t.length := by
              by_contra hc
              rw [if_neg hc] at hB
              exact absurd hB (by decide)
            rw [if_pos hk0,
              getD_irrel t (k - 1) (Char.ofNat 0) ' ' (by omega)] at hA
            rw [if_pos hk1,
              getD_irrel t (k + 1) (Char.ofNat 0) ' ' (by omega)] at hB
            have hbprev : isBoundaryAtPosition t (k - 1) = false :=
              isB_of_not_contained t (k - 1) (letter_not_boundary _ hA)
            have hbnext : isBoundaryAtPosition t (k + 1) = false :=
              isB_of_not_contained t (k + 1) (letter_not_boundary _ hB)
            have hstar : (sfSpec cfg t 0).1.getD k ' ' ≠ '*' := by
              rw [hck]
              intro hcs
              rw [hcs] at h40
              exact absurd h40 (by decide)
            have hpair1 := pc (k - 1) (by omega) hbprev
              (by rw [show k - 1 + 1 = k by omega]; exact hbf)
            rw [show k - 1 + 1 = k by omega] at hpair1
            have hpair2 := pc k hk1 hbf hbnext
            have hprev_eq : (sfSpec cfg t 0).1.getD (k - 1) ' ' =
                t.getD (k - 1) ' ' := by
              rcases hpair1 with ⟨h1, _⟩ | ⟨_, h2⟩
              · exact h1
              · exact absurd h2 hstar
            have hnext_eq : (sfSpec cfg t 0).1.getD (k + 1) ' ' =
                t.getD (k + 1) ' ' := by
              rcases hpair2 with ⟨_, h2⟩ | ⟨h1, _⟩
              · exact h2
              · exact absurd h1 hstar
            rw [isB_paren (sfSpec cfg t 0).1 k (by rw [hck]; exact hcont)
              (by rw [hck]; exact h40)]
            rw [if_pos hk0, if_pos (by rw [hlen]; exact hk1)]
            rw [getD_irrel _ (k - 1) (Char.ofNat 0) ' ' (by omega),
              getD_irrel _ (k + 1) (Char.ofNat 0) ' ' (by omega)]
            rw [hprev_eq, hnext_eq, hA, hB]
            rfl
          · exfalso
            have h40' : (((t.getD k ' ').toNat : Nat) == 40) = false := by
              simpa using h40
            rw [isB_simple t k hcont h40'] at hbf
            exact Bool.false_ne_true hbf.symm
        · have hcont' : BOUNDARY_CHARS.contains ((t.getD k ' ').toNat) =
              false := by simpa using hcont
          exact isB_of_not_contained (sfSpec cfg t 0).1 k
            (by rw [hck]; exact hcont')
      · exact isB_of_not_contained (sfSpec cfg t 0).1 k
          (by rw [hck]; decide)
  · rw [isB_oor (sfSpec cfg t 0).1 k (by omega), isB_oor t k (by omega)]

/-- Boundary characters survive the streaming filter verbatim. -/
theorem sfSpec_boundary_char (cfg : FilterConfig)
    (hp : cfg.preserveLength = true) (hr : cfg.replacement = ['*'])
    (t : List Char) (m : Nat) (hm : m < t.length)
    (hbm : isBoundaryAtPosition t m = true) :
    (sfSpec cfg t 0).1.getD m ' ' = t.getD m ' ' := by
  have h := (sfSpec_pointwise cfg hp hr t 0 m (by omega)).2.1
  rw [Nat.zero_add] at h
  exact h hbm

theorem tokenEndFrom_preserved (cfg : FilterConfig)
    (hp : cfg.preserveLength = true) (hr : cfg.replacement = ['*'])
    (t : List Char) :
    ∀ i, tokenEndFrom ((sfSpec cfg t 0).1) i = tokenEndFrom t i := by
  intro i
  have hlen : (sfSpec cfg t 0).1.length = t.length := by
    rw [sfSpec_length cfg (tokenF_length cfg hp (by rw [hr]; rfl)) t 0]
    omega
  by_cases hc : i < t.length ∧ isBoundaryAtPosition t i = false
  · rw [tokenEndFrom_step t i hc.1 hc.2]
    rw [tokenEndFrom_step (sfSpec cfg t 0).1 i (by rw [hlen]; exact hc.1)
      (by rw [isB_preserved cfg hp hr t i]; exact hc.2)]
    exact tokenEndFrom_preserved cfg hp hr t (i + 1)
  · rw [tokenEndFrom_here t i hc]
    rw [tokenEndFrom_here (sfSpec cfg t 0).1 i (by
      intro hcc
      rw [hlen, isB_preserved cfg hp hr t i] at hcc
      exact hc hcc)]
termination_by i => t.length - i
decreasing_by
  rcases hc with ⟨h1, _⟩
  omega

/-- Rescanning the streaming output changes nothing (segmentwise): on each
suffix that starts a segment, the second scan reproduces the first scan's
output. -/
theorem sfSpec_idem (cfg : FilterConfig)
    (hp : cfg.preserveLength = true) (hr : cfg.replacement = ['*'])
    (t : List Char) :
    ∀ i, (sfSpec cfg t 0).1.drop i = (sfSpec cfg t i).1 →
      (sfSpec cfg (sfSpec cfg t 0).1 i).1 = (sfSpec cfg t i).1 := by
  intro i hdrop
  have hlen : (sfSpec cfg t 0).1.length = t.length := by
    rw [sfSpec_length cfg (tokenF_length cfg hp (by rw [hr]; rfl)) t 0]
    omega
  by_cases hil : i < t.length
  · by_cases hbi : isBoundaryAtPosition t i = true
    · rw [sfSpec_bnd cfg t i hil hbi]
      rw [sfSpec_bnd cfg (sfSpec cfg t 0).1 i (by rw [hlen]; exact hil)
        (by rw [isB_preserved cfg hp hr t i]; exact hbi)]
      simp only []
      congr 1
      · exact sfSpec_boundary_char cfg hp hr t i hil hbi
      · refine sfSpec_idem cfg hp hr t (i + 1) ?_
        have h2 : ((sfSpec cfg t 0).1.drop i).drop 1 =
            (sfSpec cfg t 0).1.drop (i + 1) := by
          rw [List.drop_drop]
        rw [← h2, hdrop, sfSpec_bnd cfg t i hil hbi]
        simp
    · have hbi' : isBoundaryAtPosition t i = false := by simpa using hbi
      have hj1 : i + 1 ≤ tokenEndFrom t (i + 1) := tokenEndFrom_ge t (i + 1)
      have hj2 : tokenEndFrom t (i + 1) ≤ t.length :=
        tokenEndFrom_le t (i + 1) (by omega)
      have hwlen : (sliceL t i (tokenEndFrom t (i + 1))).length =
          tokenEndFrom t (i + 1) - i := by
        unfold sliceL
        rw [List.length_drop, List.length_take]
        omega
      have htflen :
          (tokenF cfg (sliceL t i (tokenEndFrom t (i + 1)))).length =
            tokenEndFrom t (i + 1) - i := by
        rw [tokenF_length cfg hp (by rw [hr]; rfl)]
        exact hwlen
      rw [sfSpec_tok cfg t i hil hbi'] at hdrop ⊢
      rw [sfSpec_tok cfg (sfSpec cfg t 0).1 i (by rw [hlen]; exact hil)
        (by rw [isB_preserved cfg hp hr t i]; exact hbi')]
      simp only [] at hdrop ⊢
      rw [tokenEndFrom_preserved cfg hp hr t (i + 1)]
      have hslice_u : sliceL (sfSpec cfg t 0).1 i (tokenEndFrom t (i + 1)) =
          tokenF cfg (sliceL t i (tokenEndFrom t (i + 1))) := by
        have h1 : sliceL (sfSpec cfg t 0).1 i (tokenEndFrom t (i + 1)) =
            ((sfSpec cfg t 0).1.drop i).take (tokenEndFrom t (i + 1) - i) :=
          by
          unfold sliceL
          rw [List.drop_take]
        rw [h1, hdrop]
        rw [List.take_append_of_le_length (by rw [htflen])]
        rw [List.take_of_length_le (le_of_eq htflen)]
      rw [hslice_u, tokenF_star_idem cfg hp hr]
      rw [hlen]
      by_cases hjl : tokenEndFrom t (i + 1) < t.length
      · have hcj : (sfSpec cfg t 0).1.getD (tokenEndFrom t (i + 1)) ' ' =
            t.getD (tokenEndFrom t (i + 1)) ' ' :=
          sfSpec_boundary_char cfg hp hr t _ hjl
            (tokenEndFrom_isB t (i + 1) hjl)
        rw [if_pos hjl] at hdrop
        rw [if_pos hjl, if_pos hjl]
        rw [hcj]
        have hdj : (sfSpec cfg t 0).1.drop (tokenEndFrom t (i + 1) + 1) =
            (sfSpec cfg t (tokenEndFrom t (i + 1) + 1)).1 := by
          have h2 : ((sfSpec cfg t 0).1.drop i).drop
              (tokenEndFrom t (i + 1) + 1 - i) =
              (sfSpec cfg t 0).1.drop (tokenEndFrom t (i + 1) + 1) := by
            rw [List.drop_drop]
            congr 1
            omega
          rw [← h2, hdrop]
          rw [← List.append_assoc]
          rw [List.drop_left' (by
            rw [List.length_append, htflen, List.length_singleton]
            omega)]
        congr 2
        exact sfSpec_idem cfg hp hr t (tokenEndFrom t (i + 1) + 1) hdj
      · rw [if_neg hjl] at hdrop
        rw [if_neg hjl, if_neg hjl]
        have hdj : (sfSpec cfg t 0).1.drop (tokenEndFrom t (i + 1) + 1) =
            (sfSpec cfg t (tokenEndFrom t (i + 1) + 1)).1 := by
          rw [List.drop_of_length_le (by rw [hlen]; omega),
            sfSpec_stop cfg t (tokenEndFrom t (i + 1) + 1) (by omega)]
        congr 2
        exact sfSpec_idem cfg hp hr t (tokenEndFrom t (i + 1) + 1) hdj
  · rw [sfSpec_stop cfg t i (by omega),
      sfSpec_stop cfg (sfSpec cfg t 0).1 i (by rw [hlen]; omega)]
termination_by i => t.length - i
decreasing_by
  · omega
  · omega
  · omega

/-- The streaming filter is idempotent (single-asterisk length-preserving
replacement). -/
theorem streaming_idem (cfg : FilterConfig)
    (hp : cfg.preserveLength = true) (hr : cfg.replacement = ['*'])
    (t : List Char) :
    streamingFilterOptimized cfg (streamingFilterOptimized cfg t) =
      streamingFilterOptimized cfg t := by
  rw [streaming_eq_spec cfg (streamingFilterOptimized cfg t)]
  rw [streaming_eq_spec cfg t]
  exact sfSpec_idem cfg hp hr t 0 (by rw [List.drop_zero])

theorem detect_short (t : List Char) (h : t.length < 140) :
    detectRepetitivePattern t = ⟨false, 0, []⟩ := by
  unfold detectRepetitivePattern
  rw [if_pos h]

/-- C5 (amended): under the default configuration, `filter` is idempotent
on every input shorter than 140 characters (the repetitive-pattern fast
path, which breaks idempotence, is never taken below that length). -/
theorem c5_filter_idem_short (t : List Char) (hlen : t.length < 140) :
    filterDefault (filterDefault t) = filterDefault t := by
  unfold filterDefault
  by_cases h1 : t.isEmpty = true
  · have hft : filter defaultConfig t = t := by
      unfold filter
      rw [if_pos h1]
    rw [hft, hft]
  · by_cases h2 : hasBasicProfanityChars t = true
    · have hft : filter defaultConfig t =
          streamingFilterOptimized defaultConfig t := by
        unfold filter
        rw [if_neg h1, if_neg (by simp [h2])]
        simp only []
        rw [detect_short t hlen]
        rw [if_neg (by decide)]
      rw [hft]
      have hu_len :
          (streamingFilterOptimized defaultConfig t).length < 140 := by
        rw [streaming_length defaultConfig (by decide) (by decide) t]
        omega
      by_cases h3 :
          (streamingFilterOptimized defaultConfig t).isEmpty = true
      · unfold filter
        rw [if_pos h3]
      · by_cases h4 : hasBasicProfanityChars
            (streamingFilterOptimized defaultConfig t) = true
        · unfold filter
          rw [if_neg h3, if_neg (by simp [h4])]
          simp only []
          rw [detect_short _ hu_len]
          rw [if_neg (by decide)]
          exact streaming_idem defaultConfig (by decide) (by decide) t
        · have h4' : hasBasicProfanityChars
              (streamingFilterOptimized defaultConfig t) = false := by
            simpa using h4
          unfold filter
          rw [if_neg h3, if_pos (by simp [h4'])]
    · have h2' : hasBasicProfanityChars t = false := by simpa using h2
      have hft : filter defaultConfig t = t := by
        unfold filter
        rw [if_neg h1, if_pos (by simp [h2'])]
      rw [hft, hft]

/-- The filler block of the C5 counterexample. -/
def fill23 : List Char := "aa aa aa aa aa aa aa aa".data

/-- First 35-character block of the C5 counterexample. -/
def c5A : List Char := "y damn ".data ++ fill23 ++ " shit".data

/-- Second 35-character block of the C5 counterexample (differs from `c5A`
in one word, so the first run's pattern detection fails while the second
run's succeeds on the filtered text). -/
def c5B : List Char := "y hell ".data ++ fill23 ++ " shit".data

/-- The C5 counterexample input (140 characters). -/
def c5t : List Char := c5A ++ c5B ++ c5A ++ c5B

/-- C5 counterexample: `filter` is not idempotent. After the first pass the
two distinct 35-blocks become identical, so the second pass takes the
repetitive fast path and replaces the seam-straddling `shity` tokens that
plain streaming (and hence the first pass) leaves alone. -/
theorem c5_counterexample_not_idempotent :
    filterDefault (filterDefault c5t) ≠ filterDefault c5t := by
  decide

/-- C5 witness: idempotence on a short input that the filter rewrites. -/
theorem c5_filter_idem_short_witness :
    filterDefault (filterDefault "you are a dumbass".data) =
      filterDefault "you are a dumbass".data :=
  c5_filter_idem_short "you are a dumbass".data (by decide)
